import Mathlib

/-
Verification of the bus schedule parser and query engine of
backend/bus_schedule_parser.py (class BusScheduleParser).

Python strings are modelled as lists of Unicode codepoints (PyStr).
Python datetimes (all carrying the same fixed-offset timezone) are
modelled as an absolute count of microseconds on a linear scale, so that
comparison, replace(hour, minute, second=0, microsecond=0) and
+timedelta(days=1) have their Python meaning.  File-system and network
effects of parse_pdf are modelled by an explicit environment record.
-/

/-- A Python string, as its list of Unicode codepoints. -/
abbrev PyStr := List Nat

/-- Codepoints of a Lean string literal, used to write concrete PyStr values. -/
def sOf (s : String) : PyStr := s.toList.map Char.toNat

/-- Python str.isspace and the \s class for the ASCII range used by the PDFs:
space, tab, newline, carriage return, vertical tab, form feed. -/
def pyIsSpace (n : Nat) : Bool := n == 32 || n == 9 || n == 10 || n == 13 || n == 11 || n == 12

/-- ASCII decimal digit, the regex class \d on this data. -/
def isDigitN (n : Nat) : Bool := 48 ≤ n && n ≤ 57

/-- ASCII uppercase letter, the regex class [A-Z]. -/
def isUpperN (n : Nat) : Bool := 65 ≤ n && n ≤ 90

/-- ASCII lowercase letter, the regex class [a-z]. -/
def isLowerN (n : Nat) : Bool := 97 ≤ n && n ≤ 122

/-- ASCII letter, the regex class [A-Za-z] (also [a-z] under re.IGNORECASE). -/
def isLetterN (n : Nat) : Bool := isUpperN n || isLowerN n

/-- The regex word class \w over this data: letters, digits and underscore.
A word boundary \b sits exactly between a word and a non-word position. -/
def isWordN (n : Nat) : Bool := isLetterN n || isDigitN n || n == 95

/-- Python str.upper on one ASCII codepoint. -/
def upN (n : Nat) : Nat := if isLowerN n then n - 32 else n

/-- Python str.lower on one ASCII codepoint. -/
def loN (n : Nat) : Nat := if isUpperN n then n + 32 else n

/-- Python str.upper. -/
def upStr (s : PyStr) : PyStr := s.map upN

/-- Python str.lower. -/
def loStr (s : PyStr) : PyStr := s.map loN

/-- Python str.strip(): remove leading and trailing whitespace. -/
def pyStrip (s : PyStr) : PyStr :=
  ((s.dropWhile pyIsSpace).reverse.dropWhile pyIsSpace).reverse

/-- Python substring test needle in hay. The empty needle is contained. -/
def pyContains : PyStr → PyStr → Bool
  | sub, [] => sub.isEmpty
  | sub, c :: rest => sub.isPrefixOf (c :: rest) || pyContains sub rest

/-- Case-insensitive match of a literal against a prefix of s (re.IGNORECASE
literal matching); returns the rest of s after the literal. -/
def ciPrefixRest : PyStr → PyStr → Option PyStr
  | [], s => some s
  | _ :: _, [] => none
  | l :: ls, c :: cs => if upN l == upN c then ciPrefixRest ls cs else none

/-- Scanner for str.split: skip a whitespace codepoint or take a maximal
nonempty non-whitespace run. Each step consumes at least one codepoint and
one unit of fuel, so fuel equal to the string length never runs dry early. -/
def pySplitGo : Nat → PyStr → List PyStr
  | 0, _ => []
  | fuel + 1, s =>
    match s with
    | [] => []
    | c :: rest =>
      if pyIsSpace c then pySplitGo fuel rest
      else (c :: rest.takeWhile (fun x => !pyIsSpace x)) ::
        pySplitGo fuel (rest.dropWhile (fun x => !pyIsSpace x))

/-- Python str.split(): split on whitespace runs, dropping empty pieces. -/
def pySplit (s : PyStr) : List PyStr := pySplitGo s.length s

/-- Python sep.join for a single-space separator, as used by
' '.join(capitalized_words). -/
def joinSp : List PyStr → PyStr
  | [] => []
  | [w] => w
  | w :: ws => w ++ 32 :: joinSp ws

/-- Value of a list of ASCII digit codepoints. -/
def digitsVal (ds : PyStr) : Nat := ds.foldl (fun a d => 10 * a + (d - 48)) 0

/-- Decimal digit string of a natural number (codepoints). -/
def natStr (n : Nat) : PyStr := (Nat.toDigits 10 n).map Char.toNat

/-- Python format f-string %02d on a natural number. -/
def pad2 (n : Nat) : PyStr := if n < 10 then 48 :: natStr n else natStr n

/-!
re.findall(r'\b(\d{1,2}):(\d{2})\b', line): at each position having a word
boundary on its left, try greedily two hour digits, else one, then a colon,
two minute digits, and a word boundary on the right; matches are
non-overlapping and scanning resumes after each match.
-/

/-- Right word boundary after a digit: end of string or a non-word codepoint. -/
def rightBoundary : PyStr → Bool
  | [] => true
  | c :: _ => !isWordN c

/-- Try the pattern (\d{1,2}):(\d{2})\b at the current position. On success
return hour value, minute value, and the rest of the string after the match
(the two-digit hour is tried first, as the greedy \d{1,2} does). The left \b
is checked by the caller. -/
def timeTokenAt (s : PyStr) : Option (Nat × Nat × PyStr) :=
  match s with
  | d1 :: d2 :: c :: m1 :: m2 :: rest =>
    if isDigitN d1 && isDigitN d2 && c == 58 && isDigitN m1 && isDigitN m2
        && rightBoundary rest then
      some (digitsVal [d1, d2], digitsVal [m1, m2], rest)
    else if isDigitN d1 && d2 == 58 && isDigitN c && isDigitN m1
        && rightBoundary (m2 :: rest) then
      some (digitsVal [d1], digitsVal [c, m1], m2 :: rest)
    else none
  | [d1, c, m1, m2] =>
    if isDigitN d1 && c == 58 && isDigitN m1 && isDigitN m2 then
      some (digitsVal [d1], digitsVal [m1, m2], [])
    else none
  | _ => none

/-- Scanner for findall of \b(\d{1,2}):(\d{2})\b; prevWord tracks whether the
codepoint to the left is a word codepoint (no boundary when it is), and
scanning resumes right after each match. Fuel is consumed once per codepoint
and every step advances by at least one codepoint, so starting the scan with
fuel equal to the string length never runs dry early. -/
def findTimesGo : Nat → Bool → PyStr → List (Nat × Nat)
  | 0, _, _ => []
  | _ + 1, _, [] => []
  | fuel + 1, prevWord, c :: rest =>
    if !prevWord then
      match timeTokenAt (c :: rest) with
      | some (hh, mm, after) => (hh, mm) :: findTimesGo fuel false after
      | none => findTimesGo fuel (isWordN c) rest
    else findTimesGo fuel (isWordN c) rest

/-- re.findall(r'\b(\d{1,2}):(\d{2})\b', s) as (hour value, minute value) pairs. -/
def findTimes (s : PyStr) : List (Nat × Nat) := findTimesGo s.length false s

/-- re.search(r'\d{1,2}:\d{2}', s) succeeds: some digit, colon, two digits
occur consecutively (the one-digit-hour alternative subsumes the two-digit
one for existence of a match). -/
def containsTimePat (s : PyStr) : Bool :=
  match s with
  | d :: c :: m1 :: m2 :: rest =>
    (isDigitN d && c == 58 && isDigitN m1 && isDigitN m2) || containsTimePat (c :: m1 :: m2 :: rest)
  | _ => false

/-- Parse (\d{1,2}):(\d{2}) greedily at the current position (no trailing
boundary; the AM/PM pattern has none after the minutes), returning hour value,
minute value and the rest. -/
def hmAt (s : PyStr) : Option (Nat × Nat × PyStr) :=
  match s with
  | d1 :: d2 :: c :: m1 :: m2 :: rest =>
    if isDigitN d1 && isDigitN d2 && c == 58 && isDigitN m1 && isDigitN m2 then
      some (digitsVal [d1, d2], digitsVal [m1, m2], rest)
    else if isDigitN d1 && d2 == 58 && isDigitN c && isDigitN m1 then
      some (digitsVal [d1], digitsVal [c, m1], m2 :: rest)
    else none
  | [d1, c, m1, m2] =>
    if isDigitN d1 && c == 58 && isDigitN m1 && isDigitN m2 then
      some (digitsVal [d1], digitsVal [m1, m2], [])
    else none
  | _ => none

/-- Try (\d{1,2}):(\d{2})\s*(AM|PM|am|pm)\b at the current position; the
Boolean is true for the PM alternatives (the code only tests
am_pm.upper() == 'PM'). The left \b is checked by the caller. -/
def amPmTokenAt (s : PyStr) : Option (Nat × Nat × Bool × PyStr) :=
  match hmAt s with
  | none => none
  | some (h, m, rest) =>
    match rest.dropWhile pyIsSpace with
    | a :: b :: rest' =>
      if ((a == 65 && b == 77) || (a == 97 && b == 109)) && rightBoundary rest' then
        some (h, m, false, rest')
      else if ((a == 80 && b == 77) || (a == 112 && b == 109)) && rightBoundary rest' then
        some (h, m, true, rest')
      else none
    | _ => none

/-- Scanner for findall of \b(\d{1,2}):(\d{2})\s*(AM|PM|am|pm)\b. A match
always ends right before a non-word codepoint or the end, so no new match can
begin at the resume position and the resume flag is immaterial there. -/
def findAmPmGo : Nat → Bool → PyStr → List (Nat × Nat × Bool)
  | 0, _, _ => []
  | _ + 1, _, [] => []
  | fuel + 1, prevWord, c :: rest =>
    if !prevWord then
      match amPmTokenAt (c :: rest) with
      | some (hh, mm, pm, after) => (hh, mm, pm) :: findAmPmGo fuel false after
      | none => findAmPmGo fuel (isWordN c) rest
    else findAmPmGo fuel (isWordN c) rest

/-- re.findall(r'\b(\d{1,2}):(\d{2})\s*(AM|PM|am|pm)\b', s) as
(hour value, minute value, is PM) triples. -/
def findTimesAmPm (s : PyStr) : List (Nat × Nat × Bool) := findAmPmGo s.length false s

/-- Try (?:To|From)\s+([A-Z][A-Za-z\s]+) under re.IGNORECASE at the current
position, returning the captured group: the keyword (the alternatives start
with distinct letters, so trying To first commits correctly), one or more
whitespace, then a letter followed greedily by at least one more letter or
whitespace codepoint. -/
def dirMatchAt (s : PyStr) : Option PyStr :=
  let afterKw :=
    match ciPrefixRest (sOf "to") s with
    | some r => some r
    | none => ciPrefixRest (sOf "from") s
  match afterKw with
  | none => none
  | some r =>
    if (r.takeWhile pyIsSpace).isEmpty then none
    else
      match r.dropWhile pyIsSpace with
      | c :: rest =>
        if isLetterN c then
          let tail := rest.takeWhile (fun x => isLetterN x || pyIsSpace x)
          if tail.isEmpty then none else some (c :: tail)
        else none
      | [] => none

/-- Leftmost-match scan for re.search of the direction pattern. -/
def searchDirGo : Nat → PyStr → Option PyStr
  | 0, _ => none
  | _ + 1, [] => none
  | fuel + 1, c :: rest =>
    match dirMatchAt (c :: rest) with
    | some g => some g
    | none => searchDirGo fuel rest

/-- re.search(r'(?:To|From)\s+([A-Z][A-Za-z\s]+)', s, re.I), returning
group(1) of the leftmost match. -/
def searchDir (s : PyStr) : Option PyStr := searchDirGo s.length s

/-!
The schedule-times pass of BusScheduleParser._parse_route_details
(bus_schedule_parser.py lines 430-476): walk raw_text, track a current
direction, collect timetable rows of at least three time tokens.
-/

/-- Value of one schedule_times entry: Python {} (no "times" key yet) is none;
{"times": ts} is some ts. -/
abbrev DirTimes := Option (List PyStr)

/-- schedule_times: an insertion-ordered dict from direction label to entry. -/
abbrev SchedTimes := List (PyStr × DirTimes)

/-- One time token rendered as the code's f-string {h:02d}:{m:02d}. -/
def formatTimeTok (hm : Nat × Nat) : PyStr := pad2 hm.1 ++ 58 :: pad2 hm.2

/-- Python "current_direction in schedule_times" (dict key membership). -/
def stHasKey (st : SchedTimes) (d : PyStr) : Bool := st.any (fun kv => kv.1 == d)

/-- schedule_times[d].setdefault-style update: ensure the "times" list exists,
then extend it. In the pass the key d is always present when this runs. -/
def stAddTimes (st : SchedTimes) (d : PyStr) (ts : List PyStr) : SchedTimes :=
  st.map (fun kv => if kv.1 = d then (kv.1, some (kv.2.getD [] ++ ts)) else kv)

/-- Loop state of the schedule-times pass: schedule_times, current_direction,
schedule_lines. -/
structure PassState where
  times : SchedTimes
  curDir : Option PyStr
  lines : List PyStr
deriving DecidableEq, Repr

/-- Body of the per-line loop of the schedule-times pass. -/
def schedStep (acc : PassState) (line : PyStr) : PassState :=
  let ls := pyStrip line
  let acc :=
    if pyContains (sOf "To ") ls || pyContains (sOf "From ") ls then
      match searchDir ls with
      | some g =>
        let d := pyStrip g
        { acc with
          times := if stHasKey acc.times d then acc.times else acc.times ++ [(d, none)],
          curDir := some d }
      | none => acc
    else acc
  let tms := findTimes ls
  if 3 ≤ tms.length then
    let times := tms.map formatTimeTok
    if times.isEmpty then acc
    else
      let acc := { acc with lines := acc.lines ++ [ls] }
      if acc.times.isEmpty then { acc with times := [(sOf "All", some times)] }
      else
        match acc.curDir with
        | some d => { acc with times := stAddTimes acc.times d times }
        | none => acc
  else acc

/-- The schedule-times pass over a route's raw_text: the resulting
schedule_times and schedule_lines, including the fallback that fills
schedule_lines with every stripped line containing a \d{1,2}:\d{2} pattern
when no timetable row was found. -/
def schedTimesPass (rawText : List PyStr) : SchedTimes × List PyStr :=
  let st := rawText.foldl schedStep ⟨[], none, []⟩
  (st.times,
   if st.lines.isEmpty then (rawText.filter containsTimePat).map pyStrip else st.lines)

/-!
Datetimes. Every datetime in get_next_bus_times carries the same fixed-offset
EST timezone, so comparison, field extraction, replace and timedelta
arithmetic all act on one linear scale of microseconds; a datetime is
modelled as that integer. Python floor division and nonnegative remainder
are Int.ediv and Int.emod (the divisors are positive).
-/

/-- Microseconds in a minute. -/
def usPerMin : Int := 60000000

/-- Microseconds in an hour. -/
def usPerHour : Int := 3600000000

/-- Microseconds in a day. -/
def usPerDay : Int := 86400000000

/-- current_time.replace(hour=h, minute=m, second=0, microsecond=0): keep the
date, set the time of day; datetime raises ValueError when the hour or minute
is out of range, modelled as none. -/
def pyReplaceHM (t : Int) (h m : Nat) : Option Int :=
  if h < 24 && m < 60 then
    some (usPerDay * (t.ediv usPerDay) + h * usPerHour + m * usPerMin)
  else none

/-- Hour of day 0..23 of a datetime (strftime %H as a number). -/
def dtHour (t : Int) : Int := (t.emod usPerDay).ediv usPerHour

/-- Minute 0..59 of a datetime (strftime %M as a number). -/
def dtMinute (t : Int) : Int := ((t.emod usPerDay).emod usPerHour).ediv usPerMin

/-- strftime("%H:%M"). -/
def fmt24 (t : Int) : PyStr := pad2 (dtHour t).toNat ++ 58 :: pad2 (dtMinute t).toNat

/-- strftime("%I:%M %p %Z") with the fixed EST zone name: zero-padded 12-hour
hour (0 renders as 12), minute, AM/PM, zone. -/
def fmt12 (t : Int) : PyStr :=
  let h := (dtHour t).toNat
  let h12 := if h % 12 == 0 then 12 else h % 12
  pad2 h12 ++ 58 :: pad2 (dtMinute t).toNat ++ 32 ::
    ((if h < 12 then sOf "AM" else sOf "PM") ++ 32 :: sOf "EST")

/-- The per-token body of the time loop in get_next_bus_times (lines 693-715):
12-hour to 24-hour conversion, timestamp on the query date, one-day shift when
the timestamp is strictly before now; a ValueError from datetime.replace
(hour out of range) skips the token. -/
def tokToTime (now : Int) (tok : Nat × Nat × Bool) : Option Int :=
  let (h, m, isPM) := tok
  let hour := if isPM && h != 12 then h + 12 else if !isPM && h == 12 then 0 else h
  match pyReplaceHM now hour m with
  | some busTime => some (if busTime < now then busTime + usPerDay else busTime)
  | none => none

/-- Insert into a strictly increasing list, keeping it strictly increasing and
duplicate-free. -/
def insUnique (x : Int) : List Int → List Int
  | [] => [x]
  | y :: ys => if x < y then x :: y :: ys else if x = y then y :: ys else y :: insUnique x ys

/-- Python sorted(set(l)): the strictly increasing enumeration of l's
elements. -/
def sortedSet (l : List Int) : List Int := l.foldr insUnique []

/-!
RouteSchedule data and the query engine: BusScheduleParser.find_route
(lines 582-633) and BusScheduleParser.get_next_bus_times (lines 635-728).
The route-matching and time-extraction logic both operate on the schedules
mapping of an already parsed result; the model takes that mapping as input.
-/

/-- The fields of one parsed route record used by find_route and
get_next_bus_times. -/
structure RouteData where
  route_name : PyStr
  stops : List PyStr
  raw_text : List PyStr
  schedule_lines : List PyStr
deriving DecidableEq, Repr

/-- The schedules mapping of a ParseResult: insertion-ordered dict from
uppercased route number to its RouteData. -/
abbrev Schedules := List (PyStr × RouteData)

/-- The summary dict find_route builds per matching route: raw_text truncated
to its first 20 lines, schedule_lines to its first 10. -/
structure RouteSummary where
  route_number : PyStr
  route_name : PyStr
  stops : List PyStr
  raw_text : List PyStr
  schedule_lines : List PyStr
deriving DecidableEq, Repr

/-- Python truthiness of an optional string argument (None and "" are falsy). -/
def truthy : Option PyStr → Bool
  | none => false
  | some s => !s.isEmpty

/-- The bidirectional substring test of find_route:
route_number.upper() in route_num.upper() or the converse. -/
def bidirMatch (query key : PyStr) : Bool :=
  pyContains (upStr query) (upStr key) || pyContains (upStr key) (upStr query)

/-- The route_name match of find_route: name contained in the route_name or
in some stop, all lowercased. -/
def nameMatch (nm : PyStr) (d : RouteData) : Bool :=
  pyContains (loStr nm) (loStr d.route_name)
    || d.stops.any (fun st => pyContains (loStr nm) (loStr st))

/-- The summary record built at find_route lines 625-631. -/
def mkSummary (key : PyStr) (d : RouteData) : RouteSummary :=
  { route_number := key, route_name := d.route_name, stops := d.stops,
    raw_text := d.raw_text.take 20, schedule_lines := d.schedule_lines.take 10 }

/-- The matching loop of find_route (lines 606-633) over a parsed schedules
mapping: keep a route when the truthy route_number query matches its key
bidirectionally, or the truthy route_name query matches, or neither query is
truthy. -/
def findRouteFrom (schedules : Schedules) (rn? rname? : Option PyStr) : List RouteSummary :=
  schedules.filterMap fun kd =>
    let m := (truthy rn? && bidirMatch (rn?.getD []) kd.1)
      || (truthy rname? && nameMatch (rname?.getD []) kd.2)
    if m || (!truthy rn? && !truthy rname?) then some (mkSummary kd.1 kd.2) else none

/-- text_to_parse for one matched route (lines 679-687): schedule_lines if
nonempty else raw_text (both already truncated by find_route), restricted to
lines containing the truthy stop filter case-insensitively. -/
def textToParse (stop? : Option PyStr) (r : RouteSummary) : List PyStr :=
  let tp := if r.schedule_lines.isEmpty then r.raw_text else r.schedule_lines
  if truthy stop? then
    tp.filter (fun line => pyContains (loStr (stop?.getD [])) (loStr line))
  else tp

/-- all_times of get_next_bus_times (lines 673-715): every AM/PM token of
every parsed line of every matched route, converted by tokToTime. -/
def allCandidateTimes (schedules : Schedules) (rn? stop? : Option PyStr) (now : Int) : List Int :=
  (findRouteFrom schedules rn? none).flatMap fun r =>
    (textToParse stop? r).flatMap fun line =>
      (findTimesAmPm line).filterMap (tokToTime now)

/-- future_times after filtering, dedup, sort and truncation (lines 717-719):
sorted(set([t for t in all_times if t > current_time]))[:10]. -/
def futureTimes (schedules : Schedules) (rn? stop? : Option PyStr) (now : Int) : List Int :=
  (sortedSet ((allCandidateTimes schedules rn? stop? now).filter (fun t => now < t))).take 10

/-- Python str(x) of an optional string (None prints as "None"), as used by
the f-string building the no-route error message. -/
def pyShowOpt : Option PyStr → PyStr
  | none => sOf "None"
  | some s => s

/-- f"No route found matching '{route_number}'" (39 is the apostrophe). -/
def noRouteMsg (rn? : Option PyStr) : PyStr :=
  sOf "No route found matching " ++ 39 :: (pyShowOpt rn? ++ [39])

/-- Result of get_next_bus_times: the error payload {"error": msg,
"next_times": nexts} or the full success payload. -/
inductive BusTimesResult where
  | err (msg : PyStr) (nexts : List PyStr)
  | ok (routeNumber stop : Option PyStr) (currentTime : PyStr)
      (nextTimes nextTimes24h : List PyStr) (tz : PyStr)
deriving DecidableEq, Repr

/-- get_next_bus_times after the parse step, for an already parsed schedules
mapping (lines 664-728): no matching route yields the structured error
payload; otherwise the formatted future departure lists. -/
def getNextBusTimesCore (schedules : Schedules) (rn? stop? : Option PyStr) (now : Int) :
    BusTimesResult :=
  let routes := findRouteFrom schedules rn? none
  if routes.isEmpty then .err (noRouteMsg rn?) []
  else
    let fut := futureTimes schedules rn? stop? now
    .ok rn? stop? (fmt12 now) (fut.map fmt12) (fut.map fmt24) (sOf "EST")

/-- get_next_bus_times including the parse step (lines 652-662): a parse
result carrying an "error" key is propagated as the error payload. -/
def getNextBusTimes (parseRes : Except PyStr Schedules) (rn? stop? : Option PyStr)
    (now : Int) : BusTimesResult :=
  match parseRes with
  | .error msg => .err msg []
  | .ok schedules => getNextBusTimesCore schedules rn? stop? now

/-!
The fetch and cache layer: BusScheduleParser._is_cache_valid (lines 96-108),
_load_cache (110-118) and parse_pdf (478-557). One call's interaction with
the outside world is captured by an environment record; clock values are in
seconds. Text extraction and _parse_schedule_text are abstracted by the
parseText argument, since the claims about this layer concern only which of
cached data, fresh data or an error is returned.
-/

/-- The world one parse_pdf call sees. cacheContent is the deserialized cache
file when the file exists and json.load yields truthy data; none stands for
an unreadable, corrupt or empty (falsy) file. download is the fetched bytes,
none when the request raises; Python treats empty bytes as falsy too.
extracted is the text extraction outcome for downloaded bytes, none when the
PDF library raises. -/
structure FetchEnv where
  hasUrl : Bool
  cacheExists : Bool
  cacheMtime : Int
  now : Int
  cacheContent : Option Schedules
  download : Option (List Nat)
  extracted : Option PyStr
deriving DecidableEq, Repr

/-- _is_cache_valid with the default max_age_hours=24: the file exists and
its age, now minus mtime, is strictly under 24 hours (in seconds). -/
def isCacheValid (env : FetchEnv) : Bool :=
  env.cacheExists && (env.now - env.cacheMtime < 24 * 3600)

/-- _load_cache: deserialize only when _is_cache_valid holds; a load failure
yields None. -/
def loadCache (env : FetchEnv) : Option Schedules :=
  if isCacheValid env then env.cacheContent else none

/-- Result of parse_pdf: a returned schedules payload or an {"error": msg}
dict. -/
abbrev ParsePdfRes := Except PyStr Schedules

/-- Whether the downloaded bytes are falsy ("if not pdf_content"): request
raised, or zero bytes returned. -/
def downloadFalsy (env : FetchEnv) : Bool :=
  match env.download with
  | none => true
  | some bs => bs.isEmpty

/-- parse_pdf (lines 478-557). The second component records whether
_download_pdf was invoked (a re-fetch was attempted). Steps, in code order:
fail when no URL is configured; with use_cache, return a valid loadable
cache; download, and on falsy bytes fall back to _load_cache when the cache
file exists, else fail; extract text, failing on an extraction error; parse
the text and return the fresh result (the subsequent _save_cache call does
not affect the returned value). -/
def parsePdf (parseText : PyStr → Schedules) (env : FetchEnv) (useCache : Bool) :
    ParsePdfRes × Bool :=
  if !env.hasUrl then (.error (sOf "BUS_SCHEDULE_PDF_URLS not configured"), false)
  else
    match useCache, loadCache env with
    | true, some d => (.ok d, false)
    | _, _ =>
      if downloadFalsy env then
        match env.cacheExists, loadCache env with
        | true, some d => (.ok d, true)
        | _, _ => (.error (sOf "Failed to download PDF"), true)
      else
        match env.extracted with
        | none => (.error (sOf "Failed to extract text from PDF"), true)
        | some text => (.ok (parseText text), true)

/-!
Spec-side definitions for the refinement claim about token conversion,
written from the specification text of section 4.4: extract every
\d{1,2}:\d{2}\s*(AM|PM) token, convert to 24-hour form (12 AM becomes 0,
12 PM stays 12, PM adds 12 except 12 PM), construct a timestamp at that hour
and minute on the query date, and shift any timestamp strictly earlier than
now to the next calendar day instead of discarding it.
-/

/-- Spec wording of the 24-hour conversion: 12 AM becomes 0, 12 PM stays 12,
PM adds 12 except for 12 PM. -/
def specHour24 (h : Nat) (isPM : Bool) : Nat :=
  if h == 12 then (if isPM then 12 else 0) else (if isPM then h + 12 else h)

/-- Spec wording of the timestamp: midnight of the query date plus the
converted hour and the minute, defined for in-range wall-clock fields; a
timestamp strictly earlier than now belongs to the next calendar day. -/
def specTokenTime (now : Int) (tok : Nat × Nat × Bool) : Option Int :=
  let h24 := specHour24 tok.1 tok.2.2
  if h24 < 24 && tok.2.1 < 60 then
    let onDate := usPerDay * (now.ediv usPerDay) + h24 * usPerHour + tok.2.1 * usPerMin
    some (if onDate < now then onDate + usPerDay else onDate)
  else none

/-!
The stop-name cleanup of BusScheduleParser._parse_route_details
(bus_schedule_parser.py lines 336-393): each raw candidate stop is mapped
through a known-concatenation dictionary or a chain of re.sub fixes, then
capitalized word by word, then stripped of single uppercase letters, and
accumulated with exact-duplicate and length filtering, capped at 30.

re.sub scanning is modelled by a fuel scanner that walks the string left to
right, tracking whether the codepoint to the left is a word codepoint,
replacing non-overlapping leftmost matches; every pattern below ends in a
letter, so the scan resumes in a word context after a match. Fuel is consumed
once per step and each step consumes at least one codepoint, so fuel equal to
the string length never runs dry early.
-/

/-- Generic re.sub scanner. tr receives the left-context wordness flag and
the rest of the string, and returns the replacement text and the remainder
after a nonempty leftmost match at this position. -/
def reSubGo (tr : Bool → PyStr → Option (PyStr × PyStr)) : Nat → Bool → PyStr → PyStr
  | 0, _, s => s
  | _ + 1, _, [] => []
  | fuel + 1, pw, c :: rest =>
    match tr pw (c :: rest) with
    | some (rep, after) => rep ++ reSubGo tr fuel true after
    | none => c :: reSubGo tr fuel (isWordN c) rest

/-- re.sub over a whole string. -/
def reSub (tr : Bool → PyStr → Option (PyStr × PyStr)) (s : PyStr) : PyStr :=
  reSubGo tr s.length false s

/-- Case-insensitive list equality, i.e. matching a literal under re.I. -/
def ciEq (a b : PyStr) : Bool := upStr a == upStr b

/-- Pattern lit([a-z]+) under re.I with replacement rep plus the capture:
sub patterns building/estates/grc-psb (lines 357, 360, 361). -/
def tryLitCap (lit rep : PyStr) (_ : Bool) (s : PyStr) : Option (PyStr × PyStr) :=
  match ciPrefixRest lit s with
  | none => none
  | some r =>
    let run := r.takeWhile isLetterN
    if run.isEmpty then none
    else some (rep ++ run, r.dropWhile isLetterN)

/-- Largest capture length k with 1 ≤ k, k + lit.length ≤ run.length and lit
matching at offset k: the greedy backtracking of ([a-z]+)lit. -/
def bestSplitGo (lit run : PyStr) : Nat → Option Nat
  | 0 => none
  | k + 1 =>
    if k + 1 + lit.length ≤ run.length && ciEq ((run.drop (k + 1)).take lit.length) lit then
      some (k + 1)
    else bestSplitGo lit run k

/-- Pattern ([a-z]+)lit under re.I with replacement mkRep capture:
sub patterns arrive/leave/lane (lines 358, 359, 362). -/
def trySufLit (lit : PyStr) (mkRep : PyStr → PyStr) (_ : Bool) (s : PyStr) :
    Option (PyStr × PyStr) :=
  let run := s.takeWhile isLetterN
  match bestSplitGo lit run run.length with
  | none => none
  | some k => some (mkRep (run.take k), s.drop (k + lit.length))

/-- Match each further literal after skipping an \s* gap. -/
def ciChainRest : List PyStr → PyStr → Option PyStr
  | [], r => some r
  | l :: ls, r =>
    match ciPrefixRest l (r.dropWhile pyIsSpace) with
    | none => none
    | some r2 => ciChainRest ls r2

/-- Pattern \b lit1 (\s* litK)* \b under re.I with a fixed replacement:
sub patterns post-office-umass, studio-arts, sugarloaf-estates, grc/psb,
cowles-lane, boulders (lines 364, 365, 367, 369, 370, 371). -/
def tryLitsB (lit1 : PyStr) (lits : List PyStr) (rep : PyStr) (pw : Bool) (s : PyStr) :
    Option (PyStr × PyStr) :=
  if pw then none
  else
    match ciPrefixRest lit1 s with
    | none => none
    | some r =>
      match ciChainRest lits r with
      | none => none
      | some r2 => if rightBoundary r2 then some (rep, r2) else none

/-- Trailing s? then \b, greedily, for the apts? patterns. -/
def optSBoundary (r : PyStr) : Option PyStr :=
  match r with
  | c :: rr =>
    if (c == 115 || c == 83) && rightBoundary rr then some rr
    else if rightBoundary r then some r else none
  | [] => some []

/-- Pattern \blit\s*apts?\b under re.I with a fixed replacement: sub patterns
cliffside and townehouse (lines 366, 368). -/
def tryLitApts (lit1 rep : PyStr) (pw : Bool) (s : PyStr) : Option (PyStr × PyStr) :=
  if pw then none
  else
    match ciPrefixRest lit1 s with
    | none => none
    | some r =>
      match ciPrefixRest (sOf "apt") (r.dropWhile pyIsSpace) with
      | none => none
      | some r2 =>
        match optSBoundary r2 with
        | some r3 => some (rep, r3)
        | none => none

/-- Pattern \bapts?\.?\s*amherst\b (line 363): after the literal apt come two
greedy optionals (s?, then a period), whitespace, the literal amherst and a
boundary; the greedy alternatives are tried in backtracking order. -/
def tryAptsAmherst (pw : Bool) (s : PyStr) : Option (PyStr × PyStr) :=
  if pw then none
  else
    match ciPrefixRest (sOf "apt") s with
    | none => none
    | some r =>
      let finish := fun (r2 : PyStr) =>
        match ciPrefixRest (sOf "amherst") (r2.dropWhile pyIsSpace) with
        | some rr => if rightBoundary rr then some rr else none
        | none => none
      let afterS : List PyStr :=
        match r with
        | c :: rr => if c == 115 || c == 83 then [rr, r] else [r]
        | [] => [r]
      let alts : List PyStr := afterS.flatMap fun r1 =>
        match r1 with
        | c :: rr => if c == 46 then [rr, r1] else [r1]
        | [] => [r1]
      match alts.findSome? finish with
      | some r3 => some (sOf "APTS Amherst", r3)
      | none => none

/-- The known_stops_map dictionary (lines 338-347). -/
def knownStopsMap : List (PyStr × PyStr) :=
  [(sOf "buildingcliffside", sOf "Cliffside APTS"),
   (sOf "sunderlandarrive", sOf "Sunderland"),
   (sOf "estatesleave", sOf "Sugarloaf Estates"),
   (sOf "estatestownehouse", sOf "Townehouse APTS"),
   (sOf "grc/psbamherst", sOf "UMASS GRC/PSB Amherst"),
   (sOf "lanearrive", sOf "Cowles Lane"),
   (sOf "boulders", sOf "Boulders APTS"),
   (sOf "apts amherst", sOf "Boulders APTS Amherst")]

/-- The known-map lookup or the fifteen re.sub fixes, in code order
(lines 350-371). -/
def preClean (stop : PyStr) : PyStr :=
  match knownStopsMap.lookup (loStr stop) with
  | some v => v
  | none =>
    let s := reSub (tryLitCap (sOf "building") (sOf "Building ")) stop
    let s := reSub (trySufLit (sOf "arrive") id) s
    let s := reSub (trySufLit (sOf "leave") id) s
    let s := reSub (tryLitCap (sOf "estates") (sOf "Estates ")) s
    let s := reSub (tryLitCap (sOf "grc/psb") (sOf "GRC/PSB ")) s
    let s := reSub (trySufLit (sOf "lane") (fun cap => cap ++ sOf " Lane")) s
    let s := reSub tryAptsAmherst s
    let s := reSub (tryLitsB (sOf "post") [sOf "office", sOf "umass"] (sOf "Post Office UMASS")) s
    let s := reSub (tryLitsB (sOf "studio") [sOf "arts"] (sOf "Studio Arts Building")) s
    let s := reSub (tryLitApts (sOf "cliffside") (sOf "Cliffside APTS")) s
    let s := reSub (tryLitsB (sOf "sugarloaf") [sOf "estates"] (sOf "Sugarloaf Estates")) s
    let s := reSub (tryLitApts (sOf "townehouse") (sOf "Townehouse APTS")) s
    let s := reSub (tryLitsB (sOf "grc/psb") [] (sOf "UMASS GRC/PSB")) s
    let s := reSub (tryLitsB (sOf "cowles") [sOf "lane"] (sOf "Cowles Lane")) s
    let s := reSub (tryLitsB (sOf "boulders") [] (sOf "Boulders APTS")) s
    s

/-- Python str.capitalize for ASCII: first codepoint uppercased, the rest
lowercased. -/
def pyCapitalizeW (w : PyStr) : PyStr :=
  match w with
  | [] => []
  | c :: cs => upN c :: cs.map loN

/-- The acronyms kept fully uppercase by the capitalization loop (line 378). -/
def capKeepUpper : List PyStr := [sOf "APTS", sOf "APT", sOf "UMASS", sOf "GRC", sOf "PSB"]

/-- The second keyword list of the capitalization loop (line 380); its branch
also capitalizes, like the default branch. -/
def capKnownWords : List PyStr :=
  [sOf "AMHERST", sOf "POST", sOf "OFFICE", sOf "ARTS", sOf "BUILDING"]

/-- One word of the capitalization loop (lines 376-383). -/
def capWord (w : PyStr) : PyStr :=
  if upStr w ∈ capKeepUpper then upStr w
  else if upStr w ∈ capKnownWords then pyCapitalizeW w
  else pyCapitalizeW w

/-- The whole capitalization pass (lines 374-384): split on whitespace,
capitalize each word, rejoin with single spaces. -/
def capPass (s : PyStr) : PyStr := joinSp ((pySplit s).map capWord)

/-- Is the head of the rest a whitespace codepoint (the \s+ of the final
cleanup needs at least one). -/
def headIsSpace : PyStr → Bool
  | [] => false
  | c :: _ => pyIsSpace c

/-- Scanner for re.sub(r'\b[A-Z]\s+', '', stop) (line 387): an uppercase
letter in a left word-boundary context followed by whitespace is removed
together with the whole greedy whitespace run; scanning resumes after the run
in a non-word left context. Fuel as in reSubGo. -/
def remSinglesGo : Nat → Bool → PyStr → PyStr
  | 0, _, s => s
  | _ + 1, _, [] => []
  | fuel + 1, pw, c :: rest =>
    if !pw && isUpperN c && headIsSpace rest then
      remSinglesGo fuel false (rest.dropWhile pyIsSpace)
    else c :: remSinglesGo fuel (isWordN c) rest

/-- re.sub(r'\b[A-Z]\s+', '', stop). -/
def removeSingles (s : PyStr) : PyStr := remSinglesGo s.length false s

/-- The final cleanup of one stop name (lines 386-388): drop single uppercase
letters, then strip. -/
def finCleanup (s : PyStr) : PyStr := pyStrip (removeSingles s)

/-- The whole per-stop cleanup applied to one raw candidate (body of the loop
at lines 349-388). -/
def cleanStop (stop : PyStr) : PyStr := finCleanup (capPass (preClean stop))

/-- The accumulation loop over stops_found (lines 349-391): keep a cleaned
stop when it is truthy, longer than 2 codepoints and not an exact duplicate
of an already kept one. -/
def cleanLoop : List PyStr → List PyStr → List PyStr
  | [], acc => acc
  | s :: rest, acc =>
    let c := cleanStop s
    if !c.isEmpty && 2 < c.length && !acc.contains c then cleanLoop rest (acc ++ [c])
    else cleanLoop rest acc

/-- route_data["stops"] for a list of raw candidates: the loop's result
truncated to 30 entries (line 393). -/
def stopsResult (stopsFound : List PyStr) : List PyStr := (cleanLoop stopsFound []).take 30

/-- Keep the first occurrence of each value, in order: the declarative
reading of the exact-duplicate filter. -/
def dedupFirst : List PyStr → List PyStr
  | [] => []
  | x :: xs => x :: dedupFirst (xs.filter (fun y => y ≠ x))
  termination_by l => l.length
  decreasing_by
    simp
    exact Nat.lt_succ_of_le ((List.filter_sublist _).length_le)

/-!
Remaining shared definitions for the theorems: decidable equality of parse
results, concrete sample data, and the declarative notions used to state the
corrected schedule-times claim.
-/

instance : DecidableEq (Except PyStr Schedules) := fun a b =>
  match a, b with
  | .error x, .error y =>
    if h : x = y then isTrue (by rw [h]) else isFalse (by simp [h])
  | .ok x, .ok y =>
    if h : x = y then isTrue (by rw [h]) else isFalse (by simp [h])
  | .error _, .ok _ => isFalse (by simp)
  | .ok _, .error _ => isFalse (by simp)

/-- A small concrete route record used by witnesses. -/
def sampleData : RouteData := ⟨sOf "", [], [sOf "7:00 PM"], []⟩

/-- Environment with an expired (25h old) but readable cache file and a
failing download. -/
def expiredCacheEnv : FetchEnv :=
  { hasUrl := true, cacheExists := true, cacheMtime := 0, now := 25 * 3600,
    cacheContent := some [(sOf "30", sampleData)], download := none, extracted := none }

/-- Environment with a fresh (1h old) readable cache file and a failing
download. -/
def freshCacheEnv : FetchEnv :=
  { hasUrl := true, cacheExists := true, cacheMtime := 0, now := 3600,
    cacheContent := some [(sOf "30", sampleData)], download := none, extracted := none }

/-- A raw line contains neither direction marker after stripping, so the
schedule-times pass never establishes a direction context on it. -/
def noDirMarker (line : PyStr) : Prop :=
  (pyContains (sOf "To ") (pyStrip line) || pyContains (sOf "From ") (pyStrip line)) = false

instance (line : PyStr) : Decidable (noDirMarker line) := by
  unfold noDirMarker
  infer_instance

/-- The stripped raw lines having at least three time tokens, in order: the
timetable rows of the schedule-times pass. -/
def timetableRows (rawText : List PyStr) : List PyStr :=
  (rawText.map pyStrip).filter (fun l => 3 ≤ (findTimes l).length)

/-- Direction-detection half of the per-line loop body: the state update of
schedule_times and current_direction performed before time extraction. -/
def dirPhase (acc : PassState) (line : PyStr) : PassState :=
  let ls := pyStrip line
  if pyContains (sOf "To ") ls || pyContains (sOf "From ") ls then
    match searchDir ls with
    | some g =>
      let d := pyStrip g
      { acc with
        times := if stHasKey acc.times d then acc.times else acc.times ++ [(d, none)],
        curDir := some d }
    | none => acc
  else acc

/-- Time-extraction half of the per-line loop body: findall, the three-match
threshold, the schedule_lines append, and the routing of the formatted
tokens; schedStep is definitionally timePhase after dirPhase. -/
def timePhase (acc : PassState) (line : PyStr) : PassState :=
  let ls := pyStrip line
  let tms := findTimes ls
  if 3 ≤ tms.length then
    let times := tms.map formatTimeTok
    if times.isEmpty then acc
    else
      let acc := { acc with lines := acc.lines ++ [ls] }
      if acc.times.isEmpty then { acc with times := [(sOf "All", some times)] }
      else
        match acc.curDir with
        | some d => { acc with times := stAddTimes acc.times d times }
        | none => acc
  else acc

/-- The times list stored in schedule_times under a direction key (empty when
the key is absent or its entry has no times list yet). -/
def stTimesOf (st : SchedTimes) (d : PyStr) : List PyStr :=
  match st with
  | [] => []
  | kv :: rest => if kv.1 = d then kv.2.getD [] else stTimesOf rest d

/-- Reachability invariant of the schedule-times pass: whenever a current
direction is set, its key is present in schedule_times. -/
def invKeys (acc : PassState) : Prop :=
  ∀ d, acc.curDir = some d → stHasKey acc.times d = true

/-- Schedules used by the no-route and route-matching witnesses. -/
def witnessSched : Schedules := [(sOf "30", ⟨sOf "", [], [sOf "bus at 4:30 PM and 2:00 PM"], []⟩)]

/-- Schedules whose single route keeps its departure in raw_text. -/
def rawTextSched : Schedules := [(sOf "30", ⟨sOf "", [], [sOf "7:00 PM"], []⟩)]

/-!
Declarative notions used by the stops-cleanup invariants: well-formed
words, the no-internal-boundary chain condition on capitalized words, and
the removal of non-final single uppercase words.
-/

def wordOk (w : PyStr) : Prop := w ≠ [] ∧ ∀ c ∈ w, pyIsSpace c = false

def qChain (w : PyStr) : Prop :=
  List.Chain' (fun a b => isUpperN b = true → isWordN a = true) w

def singleUpper : PyStr → Bool
  | [c] => isUpperN c
  | _ => false

def remNFS : List PyStr → List PyStr
  | [] => []
  | [w] => [w]
  | w :: w' :: ws => if singleUpper w then remNFS (w' :: ws) else w :: remNFS (w' :: ws)

/-!
Theorems. Shared helper lemmas come first, then one theorem per claim with
its witness or counterexample.
-/

theorem filterMap_ite {α β : Type} (p : α → Bool) (f : α → β) (l : List α) :
    (l.filterMap fun x => if p x then some (f x) else none) = (l.filter p).map f := by
  induction l with
  | nil => rfl
  | cons a l ih =>
    by_cases h : p a <;> simp [List.filterMap_cons, List.filter_cons, h, ih]

theorem mem_insUnique {x a : Int} {l : List Int} : a ∈ insUnique x l ↔ a = x ∨ a ∈ l := by
  induction l with
  | nil => simp [insUnique]
  | cons y ys ih =>
    unfold insUnique
    split
    · simp only [List.mem_cons]
    · split
      · rename_i hlt heq
        subst heq
        simp only [List.mem_cons]
        tauto
      · simp only [List.mem_cons, ih]
        tauto

theorem pairwise_insUnique {x : Int} {l : List Int} (h : l.Pairwise (· < ·)) :
    (insUnique x l).Pairwise (· < ·) := by
  induction l with
  | nil => simp [insUnique]
  | cons y ys ih =>
    rcases List.pairwise_cons.mp h with ⟨hy, hys⟩
    unfold insUnique
    split
    · rename_i hlt
      refine List.pairwise_cons.mpr ⟨?_, h⟩
      intro b hb
      rcases List.mem_cons.mp hb with rfl | hb
      · exact hlt
      · exact lt_trans hlt (hy b hb)
    · split
      · exact h
      · rename_i hnlt hne
        refine List.pairwise_cons.mpr ⟨?_, ih hys⟩
        intro b hb
        rcases mem_insUnique.mp hb with rfl | hb
        · omega
        · exact hy b hb

theorem sortedSet_pairwise (l : List Int) : (sortedSet l).Pairwise (· < ·) := by
  unfold sortedSet
  induction l with
  | nil => simp
  | cons a l ih => exact pairwise_insUnique ih

theorem mem_sortedSet {l : List Int} {a : Int} : a ∈ sortedSet l ↔ a ∈ l := by
  unfold sortedSet
  induction l with
  | nil => simp
  | cons b l ih => simp only [List.foldr_cons, mem_insUnique, List.mem_cons, ih]

/-- C1. Claimed: when the download yields no bytes and a cache file exists,
even one at or beyond the 24-hour window, parse_pdf returns the cached
result rather than an error. The code instead re-checks freshness inside
_load_cache on the fallback path, so with a 25-hour-old readable cache and a
failed download it returns the error payload; this theorem evaluates the
modelled parse_pdf at exactly that input. -/
theorem c1_expired_cache_fallback_errors :
    parsePdf (fun _ => []) expiredCacheEnv true
      = (.error (sOf "Failed to download PDF"), true)
    ∧ expiredCacheEnv.cacheExists = true
    ∧ expiredCacheEnv.cacheContent = some [(sOf "30", sampleData)]
    ∧ downloadFalsy expiredCacheEnv = true
    ∧ 24 * 3600 ≤ expiredCacheEnv.now - expiredCacheEnv.cacheMtime := by
  refine ⟨by decide, rfl, rfl, rfl, by decide⟩

/-- C4. For a configured route with an existing readable cache file,
parse_pdf with use_cache=True returns the deserialized cache content without
attempting a download when the cache age is strictly under 24 hours, and
attempts a re-fetch (the download is invoked) when the age is 24 hours or
more. -/
theorem c4_cache_freshness (pt : PyStr → Schedules) (env : FetchEnv) (d : Schedules)
    (hurl : env.hasUrl = true) (hex : env.cacheExists = true) (hc : env.cacheContent = some d) :
    (env.now - env.cacheMtime < 24 * 3600 → parsePdf pt env true = (.ok d, false))
    ∧ (24 * 3600 ≤ env.now - env.cacheMtime → (parsePdf pt env true).2 = true) := by
  constructor
  · intro hfresh
    have hlc : loadCache env = some d := by
      unfold loadCache isCacheValid
      have h : env.now - env.cacheMtime < 86400 := by omega
      simp [hex, hc, h]
    unfold parsePdf
    simp [hurl, hlc]
  · intro hstale
    have hlc : loadCache env = none := by
      unfold loadCache isCacheValid
      have h : ¬ (env.now - env.cacheMtime < 86400) := by omega
      simp [hex, h]
    unfold parsePdf
    simp [hurl, hlc]
    by_cases hdf : downloadFalsy env
    · simp [hdf]
    · simp [hdf]
      cases env.extracted <;> simp

/-- C4 witness: the fresh-cache environment satisfies the hypotheses and the
cached schedules come back with no download attempted. -/
theorem c4_cache_freshness_witness :
    (freshCacheEnv.hasUrl = true ∧ freshCacheEnv.cacheExists = true
      ∧ freshCacheEnv.cacheContent = some [(sOf "30", sampleData)]
      ∧ freshCacheEnv.now - freshCacheEnv.cacheMtime < 24 * 3600)
    ∧ parsePdf (fun _ => []) freshCacheEnv true = (.ok [(sOf "30", sampleData)], false) :=
  ⟨⟨rfl, rfl, rfl, by decide⟩,
   (c4_cache_freshness (fun _ => []) freshCacheEnv [(sOf "30", sampleData)]
      rfl rfl rfl).1 (by decide)⟩

/-- C10 counterexample: with use_cache=False, a failing download and an
existing but expired (25h) readable cache file, parse_pdf returns the error
payload, not the content of the existing cache file, refuting the claim that
the fallback returns any existing cache. -/
theorem c10_counterexample :
    parsePdf (fun _ => []) expiredCacheEnv false
      = (.error (sOf "Failed to download PDF"), true)
    ∧ expiredCacheEnv.cacheExists = true ∧ expiredCacheEnv.download = none := by
  refine ⟨by decide, rfl, rfl⟩

/-- C10 as amended: when the download yields no bytes, the stale-fallback
path ignores use_cache — with use_cache=False it still returns the content of
an existing cache file provided that cache is fresh (under 24h) and readable,
and the returned payload is identical for use_cache=True and use_cache=False;
so use_cache=False does not guarantee freshly downloaded data. -/
theorem c10_stale_fallback_flag_blind (pt : PyStr → Schedules) (env : FetchEnv)
    (hdl : downloadFalsy env = true) :
    (∀ d, env.hasUrl = true → env.cacheExists = true → env.now - env.cacheMtime < 24 * 3600 →
      env.cacheContent = some d → parsePdf pt env false = (.ok d, true))
    ∧ (parsePdf pt env true).1 = (parsePdf pt env false).1 := by
  constructor
  · intro d hurl hex hfresh hc
    have hlc : loadCache env = some d := by
      unfold loadCache isCacheValid
      have h : env.now - env.cacheMtime < 86400 := by omega
      simp [hex, hc, h]
    unfold parsePdf
    simp [hurl, hex, hlc, hdl]
  · by_cases hurl : env.hasUrl
    · unfold parsePdf
      rcases hlc : loadCache env with _ | d
      · simp [hurl, hlc]
      · have hex : env.cacheExists = true := by
          unfold loadCache isCacheValid at hlc
          by_cases h : env.cacheExists
          · exact h
          · simp [h] at hlc
        simp [hurl, hlc, hdl, hex]
    · unfold parsePdf
      simp [hurl]

/-- C10 witness: with a failing download and a fresh readable cache,
use_cache=False still returns the cached schedules. -/
theorem c10_stale_fallback_witness :
    (downloadFalsy freshCacheEnv = true ∧ freshCacheEnv.hasUrl = true
      ∧ freshCacheEnv.cacheExists = true
      ∧ freshCacheEnv.now - freshCacheEnv.cacheMtime < 24 * 3600
      ∧ freshCacheEnv.cacheContent = some [(sOf "30", sampleData)])
    ∧ parsePdf (fun _ => []) freshCacheEnv false = (.ok [(sOf "30", sampleData)], true) :=
  ⟨⟨rfl, rfl, rfl, by decide, rfl⟩,
   (c10_stale_fallback_flag_blind (fun _ => []) freshCacheEnv rfl).1
      [(sOf "30", sampleData)] rfl rfl (by decide) rfl⟩

theorem tokToTime_eq_spec (now : Int) (tok : Nat × Nat × Bool) :
    tokToTime now tok = specTokenTime now tok := by
  rcases tok with ⟨h, m, pm⟩
  have hh : (if pm && h != 12 then h + 12 else if !pm && h == 12 then 0 else h)
      = specHour24 h pm := by
    unfold specHour24
    by_cases h12 : h = 12 <;> cases pm <;> simp [h12]
  unfold tokToTime specTokenTime pyReplaceHM
  simp only [hh]
  by_cases hv : specHour24 h pm < 24 && m < 60 <;> simp [hv]

/-- C5. Every extracted h:mm AM/PM token is converted exactly as the
specification describes: 12 AM to hour 0, 12 PM stays 12, PM adds 12 except
for 12 PM; the timestamp is built at that hour and minute on the query date,
and a timestamp strictly earlier than now is shifted one day forward instead
of being discarded. The code conversion tokToTime coincides with the
spec-side specTokenTime on every token, hence on every extracted line. -/
theorem c5_token_conversion (now : Int) :
    (∀ tok : Nat × Nat × Bool, tokToTime now tok = specTokenTime now tok)
    ∧ ∀ line : PyStr, (findTimesAmPm line).filterMap (tokToTime now) =
        (findTimesAmPm line).filterMap (specTokenTime now) := by
  refine ⟨tokToTime_eq_spec now, fun line => ?_⟩
  have : tokToTime now = specTokenTime now := funext (tokToTime_eq_spec now)
  rw [this]

/-- C6. The returned next_times sequence holds only timestamps strictly after
now, is strictly increasing (hence duplicate-free and sorted ascending), has
at most 10 entries, and the payload renders exactly these timestamps in
12-hour form in next_times and in 24-hour HH:MM form in next_times_24h. -/
theorem c6_next_times_ordered (schedules : Schedules) (rn? stop? : Option PyStr) (now : Int) :
    (∀ t ∈ futureTimes schedules rn? stop? now, now < t)
    ∧ (futureTimes schedules rn? stop? now).Pairwise (· < ·)
    ∧ (futureTimes schedules rn? stop? now).length ≤ 10
    ∧ ((findRouteFrom schedules rn? none).isEmpty = false →
        getNextBusTimesCore schedules rn? stop? now =
          .ok rn? stop? (fmt12 now)
            ((futureTimes schedules rn? stop? now).map fmt12)
            ((futureTimes schedules rn? stop? now).map fmt24) (sOf "EST")) := by
  refine ⟨?_, ?_, ?_, ?_⟩
  · intro t ht
    have h1 := List.mem_of_mem_take ht
    have h2 := mem_sortedSet.mp h1
    have h3 := List.mem_filter.mp h2
    simpa using h3.2
  · exact (sortedSet_pairwise _).sublist (List.take_sublist _ _)
  · exact List.length_take_le _ _
  · intro hne
    unfold getNextBusTimesCore
    simp [hne]

/-- C6 witness: a concrete schedule at 16:00 yields exactly the two later
departures, ordered, in both renderings. -/
theorem c6_next_times_witness :
    ((findRouteFrom witnessSched (some (sOf "30")) none).isEmpty = false)
    ∧ getNextBusTimesCore witnessSched (some (sOf "30")) none (16 * usPerHour) =
      .ok (some (sOf "30")) none (sOf "04:00 PM EST")
        [sOf "04:30 PM EST", sOf "02:00 PM EST"] [sOf "16:30", sOf "14:00"] (sOf "EST") := by
  refine ⟨by decide, ?_⟩
  rw [(c6_next_times_ordered witnessSched (some (sOf "30")) none (16 * usPerHour)).2.2.2
    (by decide)]
  decide

/-- C7. Route lookup by a truthy route number keeps exactly the parsed routes
whose uppercased key contains the uppercased query or conversely; in
particular the query 30 matches both keys 30 and B30. -/
theorem c7_route_matching (schedules : Schedules) (q : PyStr) (hq : q ≠ []) :
    (findRouteFrom schedules (some q) none =
      (schedules.filter (fun kd => bidirMatch q kd.1)).map (fun kd => mkSummary kd.1 kd.2))
    ∧ bidirMatch (sOf "30") (sOf "30") = true ∧ bidirMatch (sOf "30") (sOf "B30") = true := by
  refine ⟨?_, by decide, by decide⟩
  have ht : truthy (some q) = true := by
    simp [truthy, List.isEmpty_iff, hq]
  unfold findRouteFrom
  have : (fun (kd : PyStr × RouteData) =>
      if ((truthy (some q) && bidirMatch ((some q).getD []) kd.1)
          || (truthy (none : Option PyStr) && nameMatch ((none : Option PyStr).getD []) kd.2)
          || (!truthy (some q) && !truthy (none : Option PyStr)))
        then some (mkSummary kd.1 kd.2) else none) =
      (fun kd => if bidirMatch q kd.1 then some (mkSummary kd.1 kd.2) else none) := by
    funext kd
    simp only [ht, truthy, Option.getD, Bool.true_and, Bool.false_and, Bool.or_false,
      Bool.not_true, Bool.not_false, Bool.and_false, Bool.and_self]
    congr 1
    simp [hq]
  simp only [this, filterMap_ite]

/-- C7 witness: querying 30 over keys B30 and 31 returns exactly the B30
summary. -/
theorem c7_route_matching_witness :
    (sOf "30" ≠ []) ∧
    findRouteFrom [(sOf "B30", sampleData), (sOf "31", sampleData)] (some (sOf "30")) none =
      [mkSummary (sOf "B30") sampleData] := by
  refine ⟨by decide, ?_⟩
  rw [(c7_route_matching [(sOf "B30", sampleData), (sOf "31", sampleData)] (sOf "30")
    (by decide)).1]
  decide

/-- C8. When the parse succeeded but no parsed route matches the query,
get_next_bus_times returns the structured payload with the no-route message
and an empty next_times list; the model is a total function, so no exception
is possible on this path. -/
theorem c8_no_route_error (schedules : Schedules) (rn? stop? : Option PyStr) (now : Int)
    (h : findRouteFrom schedules rn? none = []) :
    getNextBusTimes (.ok schedules) rn? stop? now = .err (noRouteMsg rn?) [] := by
  unfold getNextBusTimes getNextBusTimesCore
  simp [h]

/-- C8 witness: an empty parse result and the query 30 yield exactly the
message with the route number interpolated between apostrophes. -/
theorem c8_no_route_error_witness :
    (findRouteFrom [] (some (sOf "30")) none = []) ∧
    getNextBusTimes (.ok []) (some (sOf "30")) none 0 =
      .err (sOf "No route found matching " ++ 39 :: (sOf "30" ++ [39])) [] := by
  refine ⟨by decide, ?_⟩
  rw [c8_no_route_error [] (some (sOf "30")) none 0 (by decide)]
  decide

/-- C3. Every timestamp get_next_bus_times returns arises from an AM/PM token
of a line of a matched route's truncated summary: a line among the first 10
schedule_lines, or among the first 20 raw_text lines when schedule_lines is
empty. A departure appearing only in a later timetable line can therefore
never be returned. -/
theorem c3_truncated_sources (schedules : Schedules) (rn? stop? : Option PyStr) (now : Int)
    (t : Int) (ht : t ∈ futureTimes schedules rn? stop? now) :
    ∃ k d, (k, d) ∈ schedules ∧ mkSummary k d ∈ findRouteFrom schedules rn? none ∧
      ∃ line, (line ∈ d.schedule_lines.take 10
          ∨ (d.schedule_lines = [] ∧ line ∈ d.raw_text.take 20)) ∧
        ∃ tok ∈ findTimesAmPm line, tokToTime now tok = some t := by
  have h1 := mem_sortedSet.mp (List.mem_of_mem_take ht)
  have h2 := (List.mem_filter.mp h1).1
  rcases List.mem_flatMap.mp h2 with ⟨r, hr, hline⟩
  rcases List.mem_flatMap.mp hline with ⟨line, hlin, htok⟩
  rcases List.mem_filterMap.mp htok with ⟨tok, htokmem, htokeq⟩
  rcases List.mem_filterMap.mp hr with ⟨kd, hkd, hkdeq⟩
  have hr' : r = mkSummary kd.1 kd.2 := by
    dsimp only at hkdeq
    split at hkdeq
    · exact (Option.some.inj hkdeq).symm
    · exact Option.noConfusion hkdeq
  have hl : line ∈ (if r.schedule_lines.isEmpty then r.raw_text else r.schedule_lines) := by
    unfold textToParse at hlin
    by_cases hs : truthy stop?
    · simp only [hs, if_true] at hlin
      exact List.mem_of_mem_filter hlin
    · simpa [hs] using hlin
  subst hr'
  refine ⟨kd.1, kd.2, hkd, ?_, line, ?_, tok, htokmem, htokeq⟩
  · exact List.mem_filterMap.mpr ⟨kd, hkd, hkdeq⟩
  · by_cases he : kd.2.schedule_lines = []
    · right
      refine ⟨he, ?_⟩
      simpa [mkSummary, he] using hl
    · left
      simpa [mkSummary, List.isEmpty_iff, List.take_eq_nil_iff, he] using hl

/-- C3 witness: a route whose only departure sits in raw_text (schedule_lines
empty) produces the 19:00 timestamp, and the decomposition applies to it. -/
theorem c3_truncated_sources_witness :
    ((19 : Int) * usPerHour ∈ futureTimes rawTextSched (some (sOf "30")) none 0)
    ∧ ∃ k d, (k, d) ∈ rawTextSched
        ∧ mkSummary k d ∈ findRouteFrom rawTextSched (some (sOf "30")) none ∧
        ∃ line, (line ∈ d.schedule_lines.take 10
            ∨ (d.schedule_lines = [] ∧ line ∈ d.raw_text.take 20)) ∧
          ∃ tok ∈ findTimesAmPm line, tokToTime 0 tok = some (19 * usPerHour) :=
  ⟨by decide,
   c3_truncated_sources rawTextSched (some (sOf "30")) none 0 (19 * usPerHour) (by decide)⟩

theorem schedStep_noDir (acc : PassState) (line : PyStr) (hnd : noDirMarker line) :
    schedStep acc line =
      (if 3 ≤ (findTimes (pyStrip line)).length then
        { acc with
          lines := acc.lines ++ [pyStrip line],
          times :=
            if acc.times.isEmpty then
              [(sOf "All", some ((findTimes (pyStrip line)).map formatTimeTok))]
            else
              match acc.curDir with
              | some d => stAddTimes acc.times d ((findTimes (pyStrip line)).map formatTimeTok)
              | none => acc.times }
      else acc) := by
  unfold schedStep
  unfold noDirMarker at hnd
  simp only [hnd, Bool.false_eq_true, if_false]
  by_cases h3 : 3 ≤ (findTimes (pyStrip line)).length
  · simp only [h3, if_true]
    rcases hfe : findTimes (pyStrip line) with _ | ⟨a, tl⟩
    · rw [hfe] at h3
      simp at h3
    · simp only [List.map_cons, List.isEmpty_cons, Bool.false_eq_true, if_false]
      cases hv : acc.times.isEmpty
      · cases hd : acc.curDir <;> simp [hd]
      · simp
  · simp only [h3, if_false]

theorem foldl_schedStep_stable (lines : List PyStr) : ∀ acc : PassState,
    (∀ l ∈ lines, noDirMarker l) → acc.curDir = none → acc.times.isEmpty = false →
    lines.foldl schedStep acc = ⟨acc.times, none, acc.lines ++ timetableRows lines⟩ := by
  induction lines with
  | nil =>
    intro acc _ hdir _
    cases acc
    simp_all [timetableRows]
  | cons l ls ih =>
    intro acc hnd hdir hne
    rw [List.foldl_cons, schedStep_noDir acc l (hnd l (List.mem_cons_self l ls))]
    by_cases h3 : 3 ≤ (findTimes (pyStrip l)).length
    · rw [if_pos h3]
      have harr : (if acc.times.isEmpty then
            [(sOf "All", some ((findTimes (pyStrip l)).map formatTimeTok))]
          else
            match acc.curDir with
            | some d => stAddTimes acc.times d ((findTimes (pyStrip l)).map formatTimeTok)
            | none => acc.times) = acc.times := by
        rw [hne]
        simp only [Bool.false_eq_true, if_false, hdir]
      rw [harr]
      rw [ih { times := acc.times, curDir := acc.curDir, lines := acc.lines ++ [pyStrip l] }
        (fun x hx => hnd x (List.mem_cons_of_mem l hx)) hdir hne]
      have hrows : timetableRows (l :: ls) = pyStrip l :: timetableRows ls := by
        simp [timetableRows, List.filter_cons, h3]
      rw [hrows]
      simp
    · rw [if_neg h3]
      rw [ih acc (fun x hx => hnd x (List.mem_cons_of_mem l hx)) hdir hne]
      have hrows : timetableRows (l :: ls) = timetableRows ls := by
        simp [timetableRows, List.filter_cons, h3]
      rw [hrows]

theorem foldl_schedStep_fromEmpty (lines : List PyStr) : ∀ sl : List PyStr,
    (∀ l ∈ lines, noDirMarker l) →
    lines.foldl schedStep ⟨[], none, sl⟩ =
      (match timetableRows lines with
       | [] => ⟨[], none, sl⟩
       | r :: _ =>
          ⟨[(sOf "All", some ((findTimes r).map formatTimeTok))], none,
            sl ++ timetableRows lines⟩) := by
  induction lines with
  | nil =>
    intro sl _
    rfl
  | cons l ls ih =>
    intro sl hnd
    rw [List.foldl_cons, schedStep_noDir _ l (hnd l (List.mem_cons_self l ls))]
    by_cases h3 : 3 ≤ (findTimes (pyStrip l)).length
    · rw [if_pos h3]
      have hrows : timetableRows (l :: ls) = pyStrip l :: timetableRows ls := by
        simp [timetableRows, List.filter_cons, h3]
      simp only [List.isEmpty_nil, if_true]
      rw [foldl_schedStep_stable ls _ (fun x hx => hnd x (List.mem_cons_of_mem l hx)) rfl
        (by simp)]
      rw [hrows]
      simp
    · rw [if_neg h3]
      have hrows : timetableRows (l :: ls) = timetableRows ls := by
        simp [timetableRows, List.filter_cons, h3]
      rw [ih sl (fun x hx => hnd x (List.mem_cons_of_mem l hx)), hrows]

theorem schedStep_phases (acc : PassState) (line : PyStr) :
    schedStep acc line = timePhase (dirPhase acc line) line := rfl

theorem dirPhase_lines (acc : PassState) (line : PyStr) :
    (dirPhase acc line).lines = acc.lines := by
  unfold dirPhase
  cases hm : (pyContains (sOf "To ") (pyStrip line) || pyContains (sOf "From ") (pyStrip line))
  · simp [hm]
  · simp only [hm, if_true]
    rcases hs : searchDir (pyStrip line) with _ | g
    · simp [hs]
    · simp [hs]

theorem dirPhase_cases (acc : PassState) (line : PyStr) :
    dirPhase acc line = acc ∨ ∃ d, (dirPhase acc line).curDir = some d := by
  unfold dirPhase
  cases hm : (pyContains (sOf "To ") (pyStrip line) || pyContains (sOf "From ") (pyStrip line))
  · left
    simp [hm]
  · simp only [hm, if_true]
    rcases hs : searchDir (pyStrip line) with _ | g
    · left
      simp [hs]
    · right
      refine ⟨pyStrip g, ?_⟩
      simp [hs]

theorem dirPhase_none_eq (acc : PassState) (line : PyStr)
    (h : (dirPhase acc line).curDir = none) : dirPhase acc line = acc := by
  rcases dirPhase_cases acc line with he | ⟨d, hd⟩
  · exact he
  · rw [h] at hd
    cases hd

theorem row_map_ne_nil (l : PyStr) (h : 3 ≤ (findTimes l).length) :
    ((findTimes l).map formatTimeTok).isEmpty = false := by
  rcases hfe : findTimes l with _ | ⟨a, tl⟩
  · rw [hfe] at h
    simp at h
  · rfl

theorem timePhase_lines (acc : PassState) (line : PyStr) :
    (timePhase acc line).lines =
      acc.lines ++ (if 3 ≤ (findTimes (pyStrip line)).length then [pyStrip line] else []) := by
  unfold timePhase
  by_cases h3 : 3 ≤ (findTimes (pyStrip line)).length
  · simp only [h3, if_true, row_map_ne_nil (pyStrip line) h3, Bool.false_eq_true, if_false]
    cases hv : acc.times.isEmpty
    · cases hd : acc.curDir <;> simp [hd]
    · simp
  · simp [h3]

theorem schedStep_lines (acc : PassState) (line : PyStr) :
    (schedStep acc line).lines =
      acc.lines ++ (if 3 ≤ (findTimes (pyStrip line)).length then [pyStrip line] else []) := by
  rw [schedStep_phases, timePhase_lines, dirPhase_lines]

theorem foldl_schedStep_lines (lines : List PyStr) : ∀ acc : PassState,
    (lines.foldl schedStep acc).lines = acc.lines ++ timetableRows lines := by
  induction lines with
  | nil =>
    intro acc
    simp [timetableRows]
  | cons l ls ih =>
    intro acc
    rw [List.foldl_cons, ih, schedStep_lines]
    by_cases h3 : 3 ≤ (findTimes (pyStrip l)).length
    · have hrows : timetableRows (l :: ls) = pyStrip l :: timetableRows ls := by
        simp [timetableRows, List.filter_cons, h3]
      rw [hrows]
      simp [h3]
    · have hrows : timetableRows (l :: ls) = timetableRows ls := by
        simp [timetableRows, List.filter_cons, h3]
      rw [hrows]
      simp [h3]

theorem stHasKey_append_self (st : SchedTimes) (d : PyStr) (v : DirTimes) :
    stHasKey (st ++ [(d, v)]) d = true := by
  simp [stHasKey, List.any_append]

theorem stHasKey_stAddTimes (st : SchedTimes) (e d : PyStr) (ts : List PyStr) :
    stHasKey (stAddTimes st e ts) d = stHasKey st d := by
  induction st with
  | nil => rfl
  | cons kv rest ih =>
    by_cases he : kv.1 = e
    · simp [stAddTimes, stHasKey, List.any_cons, he] at ih ⊢
      rw [ih]
    · simp [stAddTimes, stHasKey, List.any_cons, he] at ih ⊢
      rw [ih]

theorem invKeys_dirPhase (acc : PassState) (line : PyStr) (h : invKeys acc) :
    invKeys (dirPhase acc line) := by
  unfold dirPhase
  cases hm : (pyContains (sOf "To ") (pyStrip line) || pyContains (sOf "From ") (pyStrip line))
  · simpa [hm] using h
  · simp only [hm, if_true]
    rcases hs : searchDir (pyStrip line) with _ | g
    · simpa [hs] using h
    · simp only [hs]
      intro d hd
      have hdg : pyStrip g = d := by simpa using hd
      subst hdg
      by_cases hk : stHasKey acc.times (pyStrip g) = true
      · simpa [hk] using hk
      · simp only [Bool.not_eq_true] at hk
        simp [hk, stHasKey_append_self]

theorem timePhase_curDir (acc : PassState) (line : PyStr) :
    (timePhase acc line).curDir = acc.curDir := by
  unfold timePhase
  by_cases h3 : 3 ≤ (findTimes (pyStrip line)).length
  · simp only [h3, if_true, row_map_ne_nil (pyStrip line) h3, Bool.false_eq_true, if_false]
    cases hv : acc.times.isEmpty
    · cases hd : acc.curDir <;> simp [hd]
    · simp
  · simp [h3]

theorem invKeys_timePhase (acc : PassState) (line : PyStr) (h : invKeys acc) :
    invKeys (timePhase acc line) := by
  intro d hd
  rw [timePhase_curDir] at hd
  have hk := h d hd
  unfold timePhase
  by_cases h3 : 3 ≤ (findTimes (pyStrip line)).length
  · simp only [h3, if_true, row_map_ne_nil (pyStrip line) h3, Bool.false_eq_true, if_false]
    cases hv : acc.times.isEmpty
    · simp only [Bool.false_eq_true, if_false]
      cases hd2 : acc.curDir
      · simpa using hk
      · simpa [stHasKey_stAddTimes] using hk
    · have hte : acc.times = [] := by
        rcases ht : acc.times with _ | ⟨a, b⟩
        · rfl
        · rw [ht] at hv
          cases hv
      rw [hte] at hk
      simp [stHasKey] at hk
  · simpa [h3] using hk

theorem invKeys_schedStep (acc : PassState) (line : PyStr) (h : invKeys acc) :
    invKeys (schedStep acc line) := by
  rw [schedStep_phases]
  exact invKeys_timePhase _ _ (invKeys_dirPhase _ _ h)

theorem invKeys_foldl (lines : List PyStr) : ∀ acc : PassState, invKeys acc →
    invKeys (lines.foldl schedStep acc) := by
  induction lines with
  | nil => exact fun acc h => h
  | cons l ls ih =>
    intro acc h
    rw [List.foldl_cons]
    exact ih _ (invKeys_schedStep acc l h)

theorem stTimesOf_stAddTimes (st : SchedTimes) (d : PyStr) (ts : List PyStr)
    (hk : stHasKey st d = true) :
    stTimesOf (stAddTimes st d ts) d = stTimesOf st d ++ ts := by
  induction st with
  | nil => simp [stHasKey] at hk
  | cons kv rest ih =>
    by_cases he : kv.1 = d
    · simp [stAddTimes, stTimesOf, he]
    · have hk' : stHasKey rest d = true := by
        simp [stHasKey, List.any_cons, he] at hk ⊢
        exact hk
      simp [stAddTimes, stTimesOf, he] at ih ⊢
      exact ih hk'

theorem stTimesOf_stAddTimes_ne (st : SchedTimes) (d e : PyStr) (ts : List PyStr)
    (hne : e ≠ d) :
    stTimesOf (stAddTimes st d ts) e = stTimesOf st e := by
  induction st with
  | nil => rfl
  | cons kv rest ih =>
    by_cases he : kv.1 = d
    · have hde : ¬ d = e := fun hq => hne hq.symm
      simp [stAddTimes, stTimesOf, he, hde] at ih ⊢
      exact ih
    · simp [stAddTimes, stTimesOf, he] at ih ⊢
      by_cases hke : kv.1 = e
      · simp [hke]
      · simp [hke]
        exact ih

theorem timePhase_row_some (acc : PassState) (line : PyStr) (d : PyStr)
    (hd : acc.curDir = some d) (hk : stHasKey acc.times d = true)
    (h3 : 3 ≤ (findTimes (pyStrip line)).length) :
    (timePhase acc line).times
      = stAddTimes acc.times d ((findTimes (pyStrip line)).map formatTimeTok) := by
  unfold timePhase
  simp only [h3, if_true, row_map_ne_nil (pyStrip line) h3, Bool.false_eq_true, if_false]
  have hv : acc.times.isEmpty = false := by
    rcases ht : acc.times with _ | ⟨a, b⟩
    · rw [ht] at hk
      cases hk
    · rfl
  simp [hv, hd]

theorem timePhase_row_none (acc : PassState) (line : PyStr)
    (hd : acc.curDir = none) (h3 : 3 ≤ (findTimes (pyStrip line)).length) :
    (timePhase acc line).times
      = (if acc.times.isEmpty then
          [(sOf "All", some ((findTimes (pyStrip line)).map formatTimeTok))]
         else acc.times) := by
  unfold timePhase
  simp only [h3, if_true, row_map_ne_nil (pyStrip line) h3, Bool.false_eq_true, if_false]
  cases hv : acc.times.isEmpty
  · simp [hd]
  · simp

/-- C2 as amended: in the schedule-times pass over any raw text, (i)
schedule_lines is exactly the stripped lines with at least three time-token
matches, in order, with the all-timey-lines fallback when there is none;
(ii) for every decomposition of the text around such a timetable row, the
row's stripped text is appended to schedule_lines, and — when a direction
context is in effect after the row's own direction detection — the key is
present and the row's zero-padded tokens are appended to exactly that key's
times list, every other key's list unchanged; with no direction context the
tokens become the sentinel All entry when schedule_times is still empty (the
first such row) and are dropped (schedule_times unchanged) otherwise; (iii)
hence over a direction-free text only the first row's tokens are stored,
under All. -/
theorem c2_amended (rawText : List PyStr) :
    ((schedTimesPass rawText).2 =
      (if timetableRows rawText = [] then (rawText.filter containsTimePat).map pyStrip
       else timetableRows rawText))
    ∧ (∀ pre l post, rawText = pre ++ l :: post →
        3 ≤ (findTimes (pyStrip l)).length →
        ((schedStep (pre.foldl schedStep ⟨[], none, []⟩) l).lines
            = (pre.foldl schedStep ⟨[], none, []⟩).lines ++ [pyStrip l])
        ∧ (∀ d, (dirPhase (pre.foldl schedStep ⟨[], none, []⟩) l).curDir = some d →
            stHasKey (dirPhase (pre.foldl schedStep ⟨[], none, []⟩) l).times d = true
            ∧ stTimesOf (schedStep (pre.foldl schedStep ⟨[], none, []⟩) l).times d
                = stTimesOf (dirPhase (pre.foldl schedStep ⟨[], none, []⟩) l).times d
                  ++ (findTimes (pyStrip l)).map formatTimeTok
            ∧ ∀ e, e ≠ d →
                stTimesOf (schedStep (pre.foldl schedStep ⟨[], none, []⟩) l).times e
                  = stTimesOf (dirPhase (pre.foldl schedStep ⟨[], none, []⟩) l).times e)
        ∧ ((dirPhase (pre.foldl schedStep ⟨[], none, []⟩) l).curDir = none →
            ((pre.foldl schedStep ⟨[], none, []⟩).times = [] →
              (schedStep (pre.foldl schedStep ⟨[], none, []⟩) l).times
                = [(sOf "All", some ((findTimes (pyStrip l)).map formatTimeTok))])
            ∧ ((pre.foldl schedStep ⟨[], none, []⟩).times ≠ [] →
              (schedStep (pre.foldl schedStep ⟨[], none, []⟩) l).times
                = (pre.foldl schedStep ⟨[], none, []⟩).times)))
    ∧ ((∀ l ∈ rawText, noDirMarker l) →
        (schedTimesPass rawText).1 =
          (match timetableRows rawText with
           | [] => []
           | r :: _ => [(sOf "All", some ((findTimes r).map formatTimeTok))])) := by
  refine ⟨?_, ?_, ?_⟩
  · unfold schedTimesPass
    have hl := foldl_schedStep_lines rawText (⟨[], none, []⟩ : PassState)
    simp only [List.nil_append] at hl
    rcases hr : timetableRows rawText with _ | ⟨r, rs⟩
    · rw [hr] at hl
      simp [hl, hr]
    · rw [hr] at hl
      simp [hl, hr]
  · intro pre l post hsplit h3
    have hinv : invKeys (pre.foldl schedStep ⟨[], none, []⟩) := by
      refine invKeys_foldl pre _ ?_
      intro d hd
      cases hd
    refine ⟨?_, ?_, ?_⟩
    · rw [schedStep_lines]
      simp [h3]
    · intro d hd
      have hinv1 : invKeys (dirPhase (pre.foldl schedStep ⟨[], none, []⟩) l) :=
        invKeys_dirPhase _ _ hinv
      have hk := hinv1 d hd
      have hstep : (schedStep (pre.foldl schedStep ⟨[], none, []⟩) l).times
          = stAddTimes (dirPhase (pre.foldl schedStep ⟨[], none, []⟩) l).times d
              ((findTimes (pyStrip l)).map formatTimeTok) := by
        rw [schedStep_phases]
        exact timePhase_row_some _ _ _ hd hk h3
      refine ⟨hk, ?_, ?_⟩
      · rw [hstep, stTimesOf_stAddTimes _ _ _ hk]
      · intro e hne
        rw [hstep, stTimesOf_stAddTimes_ne _ _ _ _ hne]
    · intro hnone
      have heq : dirPhase (pre.foldl schedStep ⟨[], none, []⟩) l
          = pre.foldl schedStep ⟨[], none, []⟩ := dirPhase_none_eq _ _ hnone
      have hd : (pre.foldl schedStep ⟨[], none, []⟩).curDir = none := by
        rw [heq] at hnone
        exact hnone
      have hstep : (schedStep (pre.foldl schedStep ⟨[], none, []⟩) l).times
          = (if (pre.foldl schedStep ⟨[], none, []⟩).times.isEmpty then
              [(sOf "All", some ((findTimes (pyStrip l)).map formatTimeTok))]
             else (pre.foldl schedStep ⟨[], none, []⟩).times) := by
        rw [schedStep_phases, heq]
        exact timePhase_row_none _ _ hd h3
      constructor
      · intro hte
        rw [hstep]
        simp [hte]
      · intro htne
        have hv : (pre.foldl schedStep ⟨[], none, []⟩).times.isEmpty = false := by
          rcases ht : (pre.foldl schedStep ⟨[], none, []⟩).times with _ | ⟨a, b⟩
          · exact absurd ht htne
          · rfl
        rw [hstep]
        simp [hv]
  · intro hnd
    unfold schedTimesPass
    rw [foldl_schedStep_fromEmpty rawText [] hnd]
    rcases hr : timetableRows rawText with _ | ⟨r, rs⟩ <;> simp

/-- C2 counterexample: with two direction-less timetable rows, the second
row is recognised as a timetable row and lands in schedule_lines, yet its
zero-padded token 10:00 is appended under no key at all — in particular not
under All — refuting the claim that every such row's tokens are appended. -/
theorem c2_counterexample :
    (findTimes (sOf "10:00 11:00 12:00")).length ≥ 3
    ∧ (schedTimesPass [sOf "7:00 8:00 9:00", sOf "10:00 11:00 12:00"]).2
        = [sOf "7:00 8:00 9:00", sOf "10:00 11:00 12:00"]
    ∧ (schedTimesPass [sOf "7:00 8:00 9:00", sOf "10:00 11:00 12:00"]).1
        = [(sOf "All", some [sOf "07:00", sOf "08:00", sOf "09:00"])]
    ∧ ∀ kv ∈ (schedTimesPass [sOf "7:00 8:00 9:00", sOf "10:00 11:00 12:00"]).1,
        sOf "10:00" ∉ kv.2.getD [] := by
  decide

/-- C2 witness for the amended statement, discharging its hypotheses both at
a text whose timetable row follows a direction line — the tokens are appended
under the key Amherst Center — and at a direction-free text, where the first
row's tokens land under All. -/
theorem c2_amended_witness :
    3 ≤ (findTimes (pyStrip (sOf "7:00 8:00 9:00"))).length
    ∧ (schedTimesPass [sOf "To Amherst Center", sOf "7:00 8:00 9:00"]).2
        = [sOf "7:00 8:00 9:00"]
    ∧ (dirPhase ([sOf "To Amherst Center"].foldl schedStep ⟨[], none, []⟩)
        (sOf "7:00 8:00 9:00")).curDir = some (sOf "Amherst Center")
    ∧ (schedStep ([sOf "To Amherst Center"].foldl schedStep ⟨[], none, []⟩)
        (sOf "7:00 8:00 9:00")).lines
        = ([sOf "To Amherst Center"].foldl schedStep ⟨[], none, []⟩).lines
          ++ [sOf "7:00 8:00 9:00"]
    ∧ stTimesOf (schedStep ([sOf "To Amherst Center"].foldl schedStep ⟨[], none, []⟩)
          (sOf "7:00 8:00 9:00")).times (sOf "Amherst Center")
        = stTimesOf (dirPhase ([sOf "To Amherst Center"].foldl schedStep ⟨[], none, []⟩)
            (sOf "7:00 8:00 9:00")).times (sOf "Amherst Center")
          ++ [sOf "07:00", sOf "08:00", sOf "09:00"]
    ∧ (∀ l ∈ [sOf "x", sOf "7:00 8:00 9:00"], noDirMarker l)
    ∧ (schedTimesPass [sOf "x", sOf "7:00 8:00 9:00"]).1
        = [(sOf "All", some [sOf "07:00", sOf "08:00", sOf "09:00"])] := by
  have hrow : 3 ≤ (findTimes (pyStrip (sOf "7:00 8:00 9:00"))).length := by decide
  have h2 := c2_amended [sOf "To Amherst Center", sOf "7:00 8:00 9:00"]
  have hb := h2.2.1 [sOf "To Amherst Center"] (sOf "7:00 8:00 9:00") [] rfl hrow
  have hdir : (dirPhase ([sOf "To Amherst Center"].foldl schedStep ⟨[], none, []⟩)
      (sOf "7:00 8:00 9:00")).curDir = some (sOf "Amherst Center") := by decide
  have hc := hb.2.1 (sOf "Amherst Center") hdir
  refine ⟨hrow, ?_, hdir, ?_, ?_, by decide, ?_⟩
  · rw [h2.1]
    decide
  · rw [hb.1]
    decide
  · rw [hc.2.1]
    decide
  · rw [(c2_amended [sOf "x", sOf "7:00 8:00 9:00"]).2.2 (by decide)]
    decide

theorem upN_upN (n : Nat) : upN (upN n) = upN n := by
  unfold upN isLowerN
  split_ifs with h1 h2 <;> simp_all <;> omega

theorem loN_upN (n : Nat) : loN (upN n) = loN n := by
  unfold upN loN isLowerN isUpperN
  split_ifs with h1 h2 h3 <;> simp_all <;> omega

theorem upN_loN (n : Nat) : upN (loN n) = upN n := by
  unfold upN loN isLowerN isUpperN
  split_ifs with h1 h2 h3 <;> simp_all <;> omega

theorem loN_loN (n : Nat) : loN (loN n) = loN n := by
  unfold loN isUpperN
  split_ifs with h1 h2 <;> simp_all <;> omega

theorem pyIsSpace_upN (n : Nat) : pyIsSpace (upN n) = pyIsSpace n := by
  unfold upN isLowerN
  split_ifs with h
  · simp only [Bool.and_eq_true, decide_eq_true_eq] at h
    have hl : pyIsSpace n = false := by
      simp [pyIsSpace]
      omega
    have hr : pyIsSpace (n - 32) = false := by
      simp [pyIsSpace]
      omega
    rw [hl, hr]
  · rfl

theorem pyIsSpace_loN (n : Nat) : pyIsSpace (loN n) = pyIsSpace n := by
  unfold loN isUpperN
  split_ifs with h
  · simp only [Bool.and_eq_true, decide_eq_true_eq] at h
    have hl : pyIsSpace n = false := by
      simp [pyIsSpace]
      omega
    have hr : pyIsSpace (n + 32) = false := by
      simp [pyIsSpace]
      omega
    rw [hl, hr]
  · rfl

theorem isUpperN_loN (n : Nat) : isUpperN (loN n) = false := by
  unfold loN isUpperN
  split_ifs with h <;> simp_all <;> omega

theorem upStr_upStr (s : PyStr) : upStr (upStr s) = upStr s := by
  unfold upStr
  rw [List.map_map]
  exact List.map_congr_left (fun c _ => upN_upN c)

theorem upStr_pyCapitalizeW (w : PyStr) : upStr (pyCapitalizeW w) = upStr w := by
  cases w with
  | nil => rfl
  | cons c cs =>
    unfold pyCapitalizeW upStr
    simp only [List.map_cons, List.map_map]
    rw [upN_upN]
    congr 1
    exact List.map_congr_left (fun c _ => upN_loN c)

theorem map_loN_congr {xs ys : List Nat} (h : xs.map upN = ys.map upN) :
    xs.map loN = ys.map loN := by
  induction xs generalizing ys with
  | nil =>
    cases ys with
    | nil => rfl
    | cons b bs => simp at h
  | cons a as ih =>
    cases ys with
    | nil => simp at h
    | cons b bs =>
      simp only [List.map_cons, List.cons.injEq] at h ⊢
      exact ⟨by rw [← loN_upN a, h.1, loN_upN], ih h.2⟩

theorem pyCapitalizeW_congr {w w' : PyStr} (h : upStr w = upStr w') :
    pyCapitalizeW w = pyCapitalizeW w' := by
  cases w with
  | nil =>
    cases w' with
    | nil => rfl
    | cons b bs => simp [upStr] at h
  | cons a as =>
    cases w' with
    | nil => simp [upStr] at h
    | cons b bs =>
      simp only [upStr, List.map_cons, List.cons.injEq] at h
      show upN a :: as.map loN = upN b :: bs.map loN
      rw [h.1, map_loN_congr h.2]

theorem capWord_congr {w w' : PyStr} (h : upStr w = upStr w') : capWord w = capWord w' := by
  unfold capWord
  rw [h, pyCapitalizeW_congr h]

theorem upStr_capWord (w : PyStr) : upStr (capWord w) = upStr w := by
  unfold capWord
  split_ifs <;> first | exact upStr_upStr w | exact upStr_pyCapitalizeW w

theorem pyCapitalizeW_idem (w : PyStr) : pyCapitalizeW (pyCapitalizeW w) = pyCapitalizeW w := by
  cases w with
  | nil => rfl
  | cons c cs =>
    unfold pyCapitalizeW
    simp only [List.cons.injEq, List.map_map]
    exact ⟨upN_upN c, List.map_congr_left (fun x _ => loN_loN x)⟩

theorem capWord_idem (w : PyStr) : capWord (capWord w) = capWord w := by
  by_cases h1 : upStr w ∈ capKeepUpper
  · have : capWord w = upStr w := by
      unfold capWord
      rw [if_pos h1]
    rw [this]
    unfold capWord
    rw [if_pos (by rw [upStr_upStr]; exact h1), upStr_upStr]
  · have hcw : capWord w = pyCapitalizeW w := by
      unfold capWord
      rw [if_neg h1]
      split_ifs <;> rfl
    rw [hcw]
    have h1' : upStr (pyCapitalizeW w) ∉ capKeepUpper := by
      rw [upStr_pyCapitalizeW]
      exact h1
    have : capWord (pyCapitalizeW w) = pyCapitalizeW (pyCapitalizeW w) := by
      unfold capWord
      rw [if_neg h1']
      split_ifs <;> rfl
    rw [this, pyCapitalizeW_idem]


theorem takeWhile_append_all {p : Nat → Bool} {a : List Nat} (b : List Nat)
    (h : ∀ x ∈ a, p x = true) : (a ++ b).takeWhile p = a ++ b.takeWhile p := by
  induction a with
  | nil => rfl
  | cons x xs ih =>
    simp only [List.cons_append, List.takeWhile_cons, h x (List.mem_cons_self x xs), if_true]
    rw [ih (fun y hy => h y (List.mem_cons_of_mem x hy))]

theorem dropWhile_append_all {p : Nat → Bool} {a : List Nat} (b : List Nat)
    (h : ∀ x ∈ a, p x = true) : (a ++ b).dropWhile p = b.dropWhile p := by
  induction a with
  | nil => rfl
  | cons x xs ih =>
    simp only [List.cons_append, List.dropWhile_cons, h x (List.mem_cons_self x xs), if_true]
    exact ih (fun y hy => h y (List.mem_cons_of_mem x hy))

theorem takeWhile_all {p : Nat → Bool} {a : List Nat} (h : ∀ x ∈ a, p x = true) :
    a.takeWhile p = a := by
  induction a with
  | nil => rfl
  | cons x xs ih =>
    rw [List.takeWhile_cons, if_pos (h x (List.mem_cons_self x xs))]
    rw [ih (fun y hy => h y (List.mem_cons_of_mem x hy))]

theorem dropWhile_all {p : Nat → Bool} {a : List Nat} (h : ∀ x ∈ a, p x = true) :
    a.dropWhile p = [] := by
  induction a with
  | nil => rfl
  | cons x xs ih =>
    rw [List.dropWhile_cons, if_pos (h x (List.mem_cons_self x xs))]
    exact ih (fun y hy => h y (List.mem_cons_of_mem x hy))

theorem pySplitGo_upStr (fuel : Nat) : ∀ s : PyStr,
    pySplitGo fuel (upStr s) = (pySplitGo fuel s).map upStr := by
  induction fuel with
  | zero => intro s; rfl
  | succ f ih =>
    intro s
    cases s with
    | nil => rfl
    | cons c rest =>
      show pySplitGo (f + 1) (upN c :: upStr rest) = _
      simp only [pySplitGo]
      rw [pyIsSpace_upN]
      by_cases hsp : pyIsSpace c = true
      · simp only [hsp, if_true]
        exact ih rest
      · simp only [hsp, Bool.false_eq_true, if_false]
        have hpred : ((fun x => !pyIsSpace x) ∘ upN) = (fun x => !pyIsSpace x) := by
          funext x
          simp [pyIsSpace_upN]
        have ihm : ∀ t : PyStr, pySplitGo f (List.map upN t) = List.map upStr (pySplitGo f t) :=
          ih
        rw [show upStr rest = rest.map upN from rfl, List.takeWhile_map, List.dropWhile_map,
          hpred, ihm]
        simp [upStr]

theorem mem_pySplitGo_ok (fuel : Nat) : ∀ (s : PyStr) (w : PyStr),
    w ∈ pySplitGo fuel s → wordOk w := by
  induction fuel with
  | zero => intro s w h; simp [pySplitGo] at h
  | succ f ih =>
    intro s w h
    cases s with
    | nil => simp [pySplitGo] at h
    | cons c rest =>
      simp only [pySplitGo] at h
      by_cases hsp : pyIsSpace c = true
      · rw [if_pos hsp] at h
        exact ih rest w h
      · rw [if_neg hsp] at h
        rcases List.mem_cons.mp h with rfl | h
        · refine ⟨List.cons_ne_nil c _, ?_⟩
          intro x hx
          rcases List.mem_cons.mp hx with rfl | hx
          · simpa using hsp
          · have := List.mem_takeWhile_imp hx
            simpa using this
        · exact ih _ w h

theorem mem_pySplit_ok {s w : PyStr} (h : w ∈ pySplit s) : wordOk w :=
  mem_pySplitGo_ok s.length s w h

theorem joinSp_cons (w : PyStr) (ws : List PyStr) :
    joinSp (w :: ws) = w ++ (match ws with | [] => [] | _ :: _ => 32 :: joinSp ws) := by
  cases ws with
  | nil => simp [joinSp]
  | cons w' ws' => rfl

theorem pySplitGo_join (ws : List PyStr) : ∀ fuel : Nat,
    (∀ w ∈ ws, wordOk w) → (joinSp ws).length ≤ fuel →
    pySplitGo fuel (joinSp ws) = ws := by
  induction ws with
  | nil =>
    intro fuel _ _
    cases fuel <;> rfl
  | cons w ws ih =>
    intro fuel hok hlen
    rcases hok w (List.mem_cons_self w ws) with ⟨hne, hsf⟩
    rcases hw : w with _ | ⟨c, cs⟩
    · exact absurd hw hne
    subst hw
    rw [joinSp_cons] at hlen ⊢
    have hcs : ∀ x ∈ cs, (fun x => !pyIsSpace x) x = true := by
      intro x hx
      simp [hsf x (List.mem_cons_of_mem c hx)]
    rcases fuel with _ | f
    · simp at hlen
    simp only [pySplitGo]
    have hc : pyIsSpace c = false := hsf c (List.mem_cons_self c cs)
    rw [List.cons_append]
    simp only [hc, Bool.false_eq_true, if_false]
    cases ws with
    | nil =>
      simp only [List.append_nil]
      rw [takeWhile_all hcs, dropWhile_all hcs]
      cases f <;> rfl
    | cons w' ws' =>
      rw [takeWhile_append_all _ hcs, dropWhile_append_all _ hcs]
      have h32 : (!pyIsSpace 32) = false := by decide
      rw [List.takeWhile_cons, List.dropWhile_cons]
      simp only [h32, Bool.false_eq_true, if_false, List.append_nil]
      rcases f with _ | f'
      · exfalso
        simp at hlen
      · show _ :: pySplitGo (f' + 1) (32 :: joinSp (w' :: ws')) = _
        simp only [pySplitGo]
        have h32s : pyIsSpace 32 = true := by decide
        simp only [h32s, if_true]
        rw [ih f' (fun x hx => hok x (List.mem_cons_of_mem _ hx)) ?_]
        simp only [List.length_cons, List.length_append] at hlen ⊢
        omega




theorem wordOk_upStr {w : PyStr} (h : wordOk w) : wordOk (upStr w) := by
  refine ⟨by simpa [upStr] using h.1, ?_⟩
  intro c hc
  rcases List.mem_map.mp hc with ⟨a, ha, rfl⟩
  rw [pyIsSpace_upN]
  exact h.2 a ha

theorem wordOk_pyCapitalizeW {w : PyStr} (h : wordOk w) : wordOk (pyCapitalizeW w) := by
  rcases w with _ | ⟨c, cs⟩
  · exact absurd rfl h.1
  refine ⟨List.cons_ne_nil _ _, ?_⟩
  intro x hx
  rcases List.mem_cons.mp hx with rfl | hx
  · rw [pyIsSpace_upN]
    exact h.2 c (List.mem_cons_self c cs)
  · rcases List.mem_map.mp hx with ⟨a, ha, rfl⟩
    rw [pyIsSpace_loN]
    exact h.2 a (List.mem_cons_of_mem c ha)

theorem wordOk_capWord {w : PyStr} (h : wordOk w) : wordOk (capWord w) := by
  unfold capWord
  split_ifs <;> first | exact wordOk_upStr h | exact wordOk_pyCapitalizeW h

theorem chain'_of_tail_not_upper (h : Nat) (t : List Nat)
    (ht : ∀ c ∈ t, isUpperN c = false) : qChain (h :: t) := by
  induction t generalizing h with
  | nil => exact List.chain'_singleton h
  | cons x xs ih =>
    refine List.Chain'.cons ?_ (ih x (fun c hc => ht c (List.mem_cons_of_mem x hc)))
    intro hup
    rw [ht x (List.mem_cons_self x xs)] at hup
    exact Bool.noConfusion hup

theorem qChain_of_all_word {w : PyStr} (h : ∀ c ∈ w, isWordN c = true) : qChain w := by
  induction w with
  | nil => exact List.chain'_nil
  | cons c cs ih =>
    cases cs with
    | nil => exact List.chain'_singleton c
    | cons c' cs' =>
      refine List.Chain'.cons (fun _ => h c (List.mem_cons_self c _)) ?_
      exact ih (fun x hx => h x (List.mem_cons_of_mem c hx))

theorem qChain_capWord (w : PyStr) : qChain (capWord w) := by
  unfold capWord
  split_ifs with h1 h2
  · have h1' : upStr w = sOf "APTS" ∨ upStr w = sOf "APT" ∨ upStr w = sOf "UMASS"
        ∨ upStr w = sOf "GRC" ∨ upStr w = sOf "PSB" := by
      simpa [capKeepUpper] using h1
    rcases h1' with h | h | h | h | h <;> rw [h] <;>
      exact qChain_of_all_word (by decide)
  all_goals
    rcases w with _ | ⟨c, cs⟩
    · exact List.chain'_nil
    · refine chain'_of_tail_not_upper (upN c) (cs.map loN) ?_
      intro x hx
      rcases List.mem_map.mp hx with ⟨a, _, rfl⟩
      exact isUpperN_loN a

theorem remNFS_cons2 (w w' : PyStr) (ws : List PyStr) :
    remNFS (w :: w' :: ws) =
      if singleUpper w then remNFS (w' :: ws) else w :: remNFS (w' :: ws) := rfl

theorem remNFS_ne_nil {ws : List PyStr} (h : ws ≠ []) : remNFS ws ≠ [] := by
  induction ws with
  | nil => exact absurd rfl h
  | cons w ws ih =>
    cases ws with
    | nil => simp [remNFS]
    | cons w' ws' =>
      rw [remNFS_cons2]
      split_ifs
      · exact ih (List.cons_ne_nil w' ws')
      · exact List.cons_ne_nil _ _

theorem mem_remNFS {ws : List PyStr} {w : PyStr} (h : w ∈ remNFS ws) : w ∈ ws := by
  induction ws with
  | nil => simp [remNFS] at h
  | cons x xs ih =>
    cases xs with
    | nil => simpa [remNFS] using h
    | cons x' xs' =>
      rw [remNFS_cons2] at h
      split_ifs at h
      · exact List.mem_cons_of_mem x (ih h)
      · rcases List.mem_cons.mp h with rfl | h
        · exact List.mem_cons_self _ _
        · exact List.mem_cons_of_mem x (ih h)

theorem remNFS_idem (ws : List PyStr) : remNFS (remNFS ws) = remNFS ws := by
  induction ws with
  | nil => rfl
  | cons w ws ih =>
    cases ws with
    | nil => rfl
    | cons w' ws' =>
      by_cases h : singleUpper w = true
      · rw [show remNFS (w :: w' :: ws') = remNFS (w' :: ws') from by rw [remNFS_cons2, if_pos h]]
        exact ih
      · have hstep : remNFS (w :: w' :: ws') = w :: remNFS (w' :: ws') := by
          rw [remNFS_cons2, if_neg h]
        rw [hstep]
        have hne := remNFS_ne_nil (List.cons_ne_nil w' ws')
        rcases hr : remNFS (w' :: ws') with _ | ⟨y, ys⟩
        · exact absurd hr hne
        · rw [remNFS_cons2, if_neg h, ← hr, ih, hr]

theorem remSinglesGo_nil (fuel : Nat) (pw : Bool) : remSinglesGo fuel pw [] = [] := by
  cases fuel <;> rfl

theorem remSinglesGo_word (w : PyStr) : ∀ (fuel : Nat) (pw : Bool) (r : PyStr),
    wordOk w → qChain w → (pw = false → singleUpper w = false) →
    w.length + r.length ≤ fuel →
    ∃ pw', remSinglesGo fuel pw (w ++ r) = w ++ remSinglesGo (fuel - w.length) pw' r := by
  induction w with
  | nil => intro _ _ _ hok; exact absurd rfl hok.1
  | cons c cs ih =>
    intro fuel pw r hok hq hsafe hlen
    rcases fuel with _ | f
    · simp at hlen
    cases cs with
    | nil =>
      have hcond : (!pw && isUpperN c && headIsSpace r) = false := by
        cases pw with
        | true => simp
        | false =>
          have := hsafe rfl
          simp only [singleUpper] at this
          simp [this]
      refine ⟨isWordN c, ?_⟩
      show remSinglesGo (f + 1) pw (c :: r) = _
      simp only [remSinglesGo, hcond, Bool.false_eq_true, if_false]
      simp

    | cons c' cs' =>
      have hc' : pyIsSpace c' = false := hok.2 c' (List.mem_cons_of_mem c (List.mem_cons_self c' cs'))
      have hcond : (!pw && isUpperN c && headIsSpace ((c' :: cs') ++ r)) = false := by
        simp only [List.cons_append, headIsSpace, hc']
        simp
      rcases List.chain'_cons.mp hq with ⟨hrel, htail⟩
      have hok' : wordOk (c' :: cs') :=
        ⟨List.cons_ne_nil _ _, fun x hx => hok.2 x (List.mem_cons_of_mem c hx)⟩
      have hsafe' : isWordN c = false → singleUpper (c' :: cs') = false := by
        intro hpw
        cases cs' with
        | nil =>
          simp only [singleUpper]
          by_contra hup
          rw [Bool.not_eq_false] at hup
          rw [hrel hup] at hpw
          exact Bool.noConfusion hpw
        | cons _ _ => rfl
      have hlen' : (c' :: cs').length + r.length ≤ f := by
        simp only [List.length_cons] at hlen ⊢
        omega
      rcases ih f (isWordN c) r hok' htail hsafe' hlen' with ⟨pw', hpw'⟩
      refine ⟨pw', ?_⟩
      show remSinglesGo (f + 1) pw (c :: ((c' :: cs') ++ r)) = _
      simp only [remSinglesGo, hcond, Bool.false_eq_true, if_false]
      rw [hpw']
      have : f - (c' :: cs').length = f + 1 - (c :: c' :: cs').length := by
        simp only [List.length_cons]
        omega
      rw [this]
      simp

theorem dropWhile_pyIsSpace_joinSp (ws : List PyStr) (h : ∀ w ∈ ws, wordOk w) :
    (joinSp ws).dropWhile pyIsSpace = joinSp ws := by
  cases ws with
  | nil => rfl
  | cons w ws =>
    rcases hw : w with _ | ⟨c, cs⟩
    · exact absurd hw (h w (List.mem_cons_self w ws)).1
    have hc : pyIsSpace c = false := by
      have := (h w (List.mem_cons_self w ws)).2
      rw [hw] at this
      exact this c (List.mem_cons_self c cs)
    subst hw
    cases ws with
    | nil =>
      show List.dropWhile pyIsSpace (c :: cs) = c :: cs
      rw [List.dropWhile_cons, hc]
      simp
    | cons w2 ws2 =>
      show List.dropWhile pyIsSpace (c :: (cs ++ 32 :: joinSp (w2 :: ws2)))
        = c :: (cs ++ 32 :: joinSp (w2 :: ws2))
      rw [List.dropWhile_cons, hc]
      simp

theorem remSinglesGo_join (ws : List PyStr) : ∀ fuel : Nat,
    (∀ w ∈ ws, wordOk w ∧ qChain w) → (joinSp ws).length ≤ fuel →
    remSinglesGo fuel false (joinSp ws) = joinSp (remNFS ws) := by
  induction ws with
  | nil =>
    intro fuel _ _
    exact remSinglesGo_nil fuel false
  | cons w ws ih =>
    intro fuel hok hlen
    rcases hok w (List.mem_cons_self w ws) with ⟨hwok, hwq⟩
    cases ws with
    | nil =>
      by_cases hsu : singleUpper w = true
      · obtain ⟨c, rfl, hup⟩ : ∃ c, w = [c] ∧ isUpperN c = true := by
          rcases w with _ | ⟨c, _ | ⟨c2, cs2⟩⟩
          · exact absurd rfl hwok.1
          · exact ⟨c, rfl, by simpa [singleUpper] using hsu⟩
          · simp [singleUpper] at hsu
        rcases fuel with _ | f
        · exfalso
          have h1 : (joinSp [[c]]).length ≤ 0 := hlen
          simp [joinSp] at h1
        show remSinglesGo (f + 1) false [c] = [c]
        simp only [remSinglesGo, headIsSpace, Bool.and_false, Bool.false_eq_true, if_false]
        rw [remSinglesGo_nil]
      · have hsu2 : singleUpper w = false := Bool.eq_false_iff.mpr hsu
        rcases remSinglesGo_word w fuel false [] hwok hwq (fun _ => hsu2)
            (by simpa [joinSp] using hlen) with ⟨pw2, hpw2⟩
        rw [remSinglesGo_nil] at hpw2
        have h1 : joinSp [w] = w ++ [] := by simp [joinSp]
        rw [h1, hpw2, List.append_nil]
        rfl
    | cons w2 ws2 =>
      have hlen2 : (w ++ 32 :: joinSp (w2 :: ws2)).length ≤ fuel := by
        rw [joinSp_cons] at hlen
        exact hlen
      have hoktail : ∀ x ∈ w2 :: ws2, wordOk x ∧ qChain x :=
        fun x hx => hok x (List.mem_cons_of_mem w hx)
      have hdw : (32 :: joinSp (w2 :: ws2)).dropWhile pyIsSpace = joinSp (w2 :: ws2) := by
        rw [List.dropWhile_cons]
        simp only [show pyIsSpace 32 = true from by decide, if_true]
        exact dropWhile_pyIsSpace_joinSp (w2 :: ws2) (fun x hx => (hoktail x hx).1)
      by_cases hsu : singleUpper w = true
      · obtain ⟨c, rfl, hup⟩ : ∃ c, w = [c] ∧ isUpperN c = true := by
          rcases w with _ | ⟨c, _ | ⟨c2, cs2⟩⟩
          · exact absurd rfl hwok.1
          · exact ⟨c, rfl, by simpa [singleUpper] using hsu⟩
          · simp [singleUpper] at hsu
        rcases fuel with _ | f
        · simp at hlen2
        rw [joinSp_cons]
        show remSinglesGo (f + 1) false (c :: (32 :: joinSp (w2 :: ws2))) = _
        simp only [remSinglesGo, hup, headIsSpace, show pyIsSpace 32 = true from by decide,
          Bool.and_true, Bool.not_false, Bool.true_and, if_true]
        rw [hdw]
        rw [ih f hoktail (by simp at hlen2 ⊢; omega)]
        rw [remNFS_cons2, if_pos hsu]
      · have hsu2 : singleUpper w = false := Bool.eq_false_iff.mpr hsu
        rw [joinSp_cons]
        rcases remSinglesGo_word w fuel false (32 :: joinSp (w2 :: ws2)) hwok hwq (fun _ => hsu2)
            (by simp at hlen2 ⊢; omega) with ⟨pw2, hpw2⟩
        rw [hpw2]
        have hg : (32 :: joinSp (w2 :: ws2)).length ≤ fuel - w.length := by
          simp at hlen2 ⊢
          have := List.length_pos.mpr hwok.1
          omega
        rcases hgf : fuel - w.length with _ | g
        · rw [hgf] at hg
          simp at hg
        show w ++ remSinglesGo (g + 1) pw2 (32 :: joinSp (w2 :: ws2)) = _
        simp only [remSinglesGo, show isUpperN 32 = false from by decide, Bool.and_false,
          Bool.false_and, Bool.false_eq_true, if_false]
        rw [show isWordN 32 = false from by decide]
        rw [ih g hoktail (by rw [hgf] at hg; simp at hg; omega)]
        have hne := remNFS_ne_nil (List.cons_ne_nil w2 ws2)
        rcases hr : remNFS (w2 :: ws2) with _ | ⟨y, ys⟩
        · exact absurd hr hne
        rw [remNFS_cons2, if_neg hsu, hr]
        rfl

theorem joinSp_append_single (xs : List PyStr) (y : PyStr) :
    joinSp (xs ++ [y]) = (match xs with | [] => y | _ :: _ => joinSp xs ++ 32 :: y) := by
  induction xs with
  | nil => rfl
  | cons x xs ih =>
    cases xs with
    | nil => rfl
    | cons x2 xs2 =>
      show joinSp (x :: ((x2 :: xs2) ++ [y])) = (x ++ 32 :: joinSp (x2 :: xs2)) ++ 32 :: y
      have h1 : joinSp (x :: ((x2 :: xs2) ++ [y])) = x ++ 32 :: joinSp ((x2 :: xs2) ++ [y]) := rfl
      rw [h1, ih]
      simp

theorem joinSp_reverse (ws : List PyStr) :
    (joinSp ws).reverse = joinSp ((ws.map List.reverse).reverse) := by
  induction ws with
  | nil => rfl
  | cons w ws ih =>
    cases ws with
    | nil => rfl
    | cons w2 ws2 =>
      show (w ++ 32 :: joinSp (w2 :: ws2)).reverse = _
      rw [List.reverse_append, List.reverse_cons]
      rw [ih]
      have hmapne : ((w2 :: ws2).map List.reverse).reverse ≠ [] := by simp
      rcases hm : ((w2 :: ws2).map List.reverse).reverse with _ | ⟨z, zs⟩
      · exact absurd hm hmapne
      show (joinSp (z :: zs) ++ [32]) ++ w.reverse = joinSp (((w :: w2 :: ws2).map List.reverse).reverse)
      have h2 : ((w :: w2 :: ws2).map List.reverse).reverse
          = ((w2 :: ws2).map List.reverse).reverse ++ [w.reverse] := by
        simp
      rw [h2, hm, joinSp_append_single]
      simp

theorem wordOk_reverse {w : PyStr} (h : wordOk w) : wordOk w.reverse := by
  refine ⟨by simpa using h.1, ?_⟩
  intro c hc
  exact h.2 c (List.mem_reverse.mp hc)

theorem pyStrip_joinSp (ws : List PyStr) (h : ∀ w ∈ ws, wordOk w) :
    pyStrip (joinSp ws) = joinSp ws := by
  unfold pyStrip
  rw [dropWhile_pyIsSpace_joinSp ws h, joinSp_reverse ws]
  rw [dropWhile_pyIsSpace_joinSp _ ?_]
  · rw [← joinSp_reverse ws, List.reverse_reverse]
  · intro w hw
    rcases List.mem_reverse.mp hw with hw2
    rcases List.mem_map.mp hw2 with ⟨a, ha, rfl⟩
    exact wordOk_reverse (h a ha)

theorem capPass_words_ok (s : PyStr) :
    ∀ w ∈ (pySplit s).map capWord, wordOk w ∧ qChain w := by
  intro w hw
  rcases List.mem_map.mp hw with ⟨u, hu, rfl⟩
  exact ⟨wordOk_capWord (mem_pySplit_ok hu), qChain_capWord u⟩

theorem finCleanup_capPass (s : PyStr) :
    finCleanup (capPass s) = joinSp (remNFS ((pySplit s).map capWord)) := by
  unfold finCleanup capPass removeSingles
  rw [remSinglesGo_join _ _ (capPass_words_ok s) le_rfl]
  refine pyStrip_joinSp _ ?_
  intro w hw
  exact (capPass_words_ok s w (mem_remNFS hw)).1

theorem upStr_length (s : PyStr) : (upStr s).length = s.length := by
  simp [upStr]

theorem map_upStr_pySplit (s : PyStr) : (pySplit s).map upStr = pySplit (upStr s) := by
  unfold pySplit
  rw [upStr_length]
  exact (pySplitGo_upStr s.length s).symm

theorem map_capWord_congr : ∀ {xs ys : List PyStr},
    xs.map upStr = ys.map upStr → xs.map capWord = ys.map capWord := by
  intro xs
  induction xs with
  | nil =>
    intro ys h
    cases ys with
    | nil => rfl
    | cons b bs => simp at h
  | cons a as ih =>
    intro ys h
    cases ys with
    | nil => simp at h
    | cons b bs =>
      simp only [List.map_cons, List.cons.injEq] at h ⊢
      exact ⟨capWord_congr h.1, ih h.2⟩

theorem capPass_congr {a b : PyStr} (h : upStr a = upStr b) : capPass a = capPass b := by
  unfold capPass
  congr 1
  apply map_capWord_congr
  rw [map_upStr_pySplit, map_upStr_pySplit, h]

theorem fincap_congr {a b : PyStr} (h : upStr a = upStr b) :
    finCleanup (capPass a) = finCleanup (capPass b) := by
  rw [capPass_congr h]

theorem fincap_idem (x : PyStr) :
    finCleanup (capPass (finCleanup (capPass x))) = finCleanup (capPass x) := by
  have h1 := finCleanup_capPass x
  set Ws := (pySplit x).map capWord with hWs
  set W' := remNFS Ws with hW'
  have hwords : ∀ w ∈ W', wordOk w ∧ qChain w := by
    intro w hw
    exact capPass_words_ok x w (mem_remNFS hw)
  have h2 : pySplit (joinSp W') = W' := by
    unfold pySplit
    exact pySplitGo_join W' (joinSp W').length (fun w hw => (hwords w hw).1) le_rfl
  have h3 : W'.map capWord = W' := by
    have := List.map_congr_left (l := W') (f := capWord) (g := id) ?_
    · rw [this, List.map_id]
    · intro w hw
      rcases List.mem_map.mp (mem_remNFS (hW' ▸ hw)) with ⟨u, _, rfl⟩
      exact capWord_idem u
  rw [h1, finCleanup_capPass, h2, h3, hW', remNFS_idem]

theorem cleanStop_upStr_inj {x y : PyStr}
    (h : upStr (cleanStop x) = upStr (cleanStop y)) : cleanStop x = cleanStop y := by
  have hx : cleanStop x = finCleanup (capPass (preClean x)) := rfl
  have hy : cleanStop y = finCleanup (capPass (preClean y)) := rfl
  calc cleanStop x = finCleanup (capPass (cleanStop x)) := by
        rw [hx, fincap_idem]
    _ = finCleanup (capPass (cleanStop y)) := fincap_congr h
    _ = cleanStop y := by
        rw [hy, fincap_idem]


theorem dedupFirst_nil : dedupFirst [] = [] := by
  rw [dedupFirst]

theorem dedupFirst_cons (x : PyStr) (xs : List PyStr) :
    dedupFirst (x :: xs) = x :: dedupFirst (xs.filter (fun y => y ≠ x)) := by
  rw [dedupFirst]

theorem dedupFirst_sublist_n : ∀ (n : Nat) (l : List PyStr), l.length ≤ n →
    List.Sublist (dedupFirst l) l := by
  intro n
  induction n with
  | zero =>
    intro l hl
    rw [List.length_eq_zero.mp (Nat.le_zero.mp hl), dedupFirst_nil]
  | succ n ih =>
    intro l hl
    cases l with
    | nil => rw [dedupFirst_nil]
    | cons x xs =>
      rw [dedupFirst_cons]
      refine List.Sublist.cons₂ x ?_
      refine (ih _ ?_).trans (List.filter_sublist xs)
      calc (xs.filter (fun y => y ≠ x)).length ≤ xs.length := (List.filter_sublist xs).length_le
        _ ≤ n := by simpa using hl

theorem dedupFirst_sublist (l : List PyStr) : List.Sublist (dedupFirst l) l :=
  dedupFirst_sublist_n l.length l le_rfl

theorem dedupFirst_nodup_n : ∀ (n : Nat) (l : List PyStr), l.length ≤ n →
    (dedupFirst l).Pairwise (· ≠ ·) := by
  intro n
  induction n with
  | zero =>
    intro l hl
    rw [List.length_eq_zero.mp (Nat.le_zero.mp hl), dedupFirst_nil]
    exact List.Pairwise.nil
  | succ n ih =>
    intro l hl
    cases l with
    | nil =>
      rw [dedupFirst_nil]
      exact List.Pairwise.nil
    | cons x xs =>
      rw [dedupFirst_cons]
      refine List.pairwise_cons.mpr ⟨?_, ?_⟩
      · intro b hb
        have hbf := (dedupFirst_sublist _).mem hb
        have h2 := (List.mem_filter.mp hbf).2
        simp only [ne_eq, decide_not, Bool.not_eq_true', decide_eq_false_iff_not] at h2
        exact fun hxb => h2 (hxb ▸ rfl)
      · refine ih _ ?_
        calc (xs.filter (fun y => y ≠ x)).length ≤ xs.length := (List.filter_sublist xs).length_le
          _ ≤ n := by simpa using hl

theorem cleanLoop_eq (sf : List PyStr) : ∀ acc : List PyStr,
    cleanLoop sf acc = acc ++ dedupFirst
      (((sf.map cleanStop).filter (fun c => !c.isEmpty && 2 < c.length)).filter
        (fun c => !acc.contains c)) := by
  induction sf with
  | nil =>
    intro acc
    simp [cleanLoop, dedupFirst_nil]
  | cons s rest ih =>
    intro acc
    have hstep : cleanLoop (s :: rest) acc =
        (if (!(cleanStop s).isEmpty && 2 < (cleanStop s).length
              && !acc.contains (cleanStop s)) then
          cleanLoop rest (acc ++ [cleanStop s])
        else cleanLoop rest acc) := rfl
    rw [hstep]
    by_cases hgood : (!(cleanStop s).isEmpty && decide (2 < (cleanStop s).length)) = true
    · have hfg : (((s :: rest).map cleanStop).filter (fun c => !c.isEmpty && 2 < c.length))
          = cleanStop s :: ((rest.map cleanStop).filter (fun c => !c.isEmpty && 2 < c.length)) := by
        simp only [List.map_cons, List.filter_cons, hgood, if_true]
      by_cases hcont : acc.contains (cleanStop s) = true
      · have hguard : (!(cleanStop s).isEmpty && decide (2 < (cleanStop s).length)
            && !acc.contains (cleanStop s)) = false := by
          rw [hcont]
          simp
        rw [hguard]
        simp only [Bool.false_eq_true, if_false]
        rw [ih acc, hfg, List.filter_cons]
        rw [if_neg (by rw [hcont]; simp)]
      · have hcf : acc.contains (cleanStop s) = false := Bool.eq_false_iff.mpr hcont
        have hguard : (!(cleanStop s).isEmpty && decide (2 < (cleanStop s).length)
            && !acc.contains (cleanStop s)) = true := by
          rw [hcf, hgood]
          simp
        rw [hguard]
        simp only [if_true]
        rw [ih (acc ++ [cleanStop s]), hfg, List.filter_cons, if_pos (by rw [hcf]; simp)]
        rw [dedupFirst_cons]
        have hfuse : (((rest.map cleanStop).filter (fun c => !c.isEmpty && 2 < c.length)).filter
              (fun c => !acc.contains c)).filter (fun y => y ≠ cleanStop s)
            = ((rest.map cleanStop).filter (fun c => !c.isEmpty && 2 < c.length)).filter
              (fun c => !(acc ++ [cleanStop s]).contains c) := by
          rw [List.filter_filter]
          apply List.filter_congr
          intro y _
          have h2 : (!(acc ++ [cleanStop s]).contains y)
              = (!acc.contains y && decide (y ≠ cleanStop s)) := by
            simp [List.mem_append, Bool.not_or]
          rw [h2]
          exact Bool.and_comm _ _
        rw [hfuse]
        simp
    · have hgf : (!(cleanStop s).isEmpty && decide (2 < (cleanStop s).length)) = false :=
        Bool.eq_false_iff.mpr hgood
      have hguard : (!(cleanStop s).isEmpty && decide (2 < (cleanStop s).length)
          && !acc.contains (cleanStop s)) = false := by
        rw [hgf]
        simp
      rw [hguard]
      simp only [Bool.false_eq_true, if_false]
      rw [ih acc]
      congr 2
      simp only [List.map_cons, List.filter_cons, hgf, Bool.false_eq_true, if_false]

theorem cleanLoop_nil_eq (sf : List PyStr) :
    cleanLoop sf []
      = dedupFirst ((sf.map cleanStop).filter (fun c => !c.isEmpty && 2 < c.length)) := by
  rw [cleanLoop_eq sf []]
  simp only [List.nil_append]
  congr 1
  have hT : ∀ c : PyStr, c ∈ ((sf.map cleanStop).filter (fun c => !c.isEmpty && 2 < c.length)) →
      (!List.contains [] c) = true := fun c _ => rfl
  rw [List.filter_congr hT]
  simp

/-- C9. Every stops list the cleanup produces has at most 30 entries, no two
entries equal up to ASCII case, and consists of the first occurrences, in
order, of the good cleaned candidates (cleaned stops that are nonempty and
longer than 2 codepoints), truncated to 30; the dedup keeps candidates in
their order of appearance, witnessed by the sublist relation. -/
theorem c9_stops_invariants (sf : List PyStr) :
    (stopsResult sf).length ≤ 30
    ∧ (stopsResult sf).Pairwise (fun a b => upStr a ≠ upStr b)
    ∧ stopsResult sf =
        (dedupFirst ((sf.map cleanStop).filter (fun c => !c.isEmpty && 2 < c.length))).take 30
    ∧ List.Sublist (dedupFirst ((sf.map cleanStop).filter (fun c => !c.isEmpty && 2 < c.length)))
        ((sf.map cleanStop).filter (fun c => !c.isEmpty && 2 < c.length)) := by
  have heq : stopsResult sf =
      (dedupFirst ((sf.map cleanStop).filter (fun c => !c.isEmpty && 2 < c.length))).take 30 := by
    unfold stopsResult
    rw [cleanLoop_nil_eq]
  refine ⟨by rw [heq]; exact List.length_take_le _ _, ?_, heq, dedupFirst_sublist _⟩
  rw [heq]
  have hnodup : ((dedupFirst ((sf.map cleanStop).filter
      (fun c => !c.isEmpty && 2 < c.length))).take 30).Pairwise (· ≠ ·) :=
    (dedupFirst_nodup_n _ _ le_rfl).sublist (List.take_sublist _ _)
  refine hnodup.imp_of_mem ?_
  intro a b ha hb hne hup
  apply hne
  have hmem : ∀ x ∈ (dedupFirst ((sf.map cleanStop).filter
      (fun c => !c.isEmpty && 2 < c.length))).take 30, ∃ u, x = cleanStop u := by
    intro x hx
    have h1 := (dedupFirst_sublist _).mem (List.mem_of_mem_take hx)
    rcases List.mem_map.mp (List.mem_of_mem_filter h1) with ⟨u, _, rfl⟩
    exact ⟨u, rfl⟩
  rcases hmem a ha with ⟨u, rfl⟩
  rcases hmem b hb with ⟨v, rfl⟩
  exact cleanStop_upStr_inj hup
